import Mathlib

/-!
Shallow embedding of `src/services/study/path_finder.py` from the
GridFlow-Alpha3.0 repository: edge normalization, resistance weighting,
graph construction, Dijkstra search with disconnected-graph fallback, and
path reconstruction.  Numeric values (lengths, resistances, coordinates)
are modelled as exact rationals; the external geodesic/planar distance
routines (pyproj `Geod.inv` / shapely `Point.distance`) are abstracted as
a pair of distance functions carried in a `GeoModel`.
-/

namespace GridFlow

/-- Junction identifier (PAC code), an opaque string. -/
abbrev Node := String

/-- A 2D coordinate `(lon, lat)` in the working CRS, forced to 2D as in the
source's `to_xy`. -/
abbrev Coord := ℚ × ℚ

/-- Abstraction of the two external distance routines used by the source:
`planar` models shapely `Point.distance` (planar distance in CRS units) and
`geod` models `Geod(ellps="WGS84").inv` (geodesic distance in meters).
Both are parameters of the embedding since they are external library calls. -/
structure GeoModel where
  planar : Coord → Coord → ℚ
  geod : Coord → Coord → ℚ

/-- A nonempty coordinate sequence, modelling a shapely `LineString`
(which always has at least one vertex when non-empty; valid ones have two). -/
structure LineG where
  c0 : Coord
  rest : List Coord
deriving DecidableEq, Repr

def LineG.coords (l : LineG) : List Coord := l.c0 :: l.rest

def LineG.lastCoord (l : LineG) : Coord := (l.c0 :: l.rest).getLast (by simp)

/-- Geometry shapes the source dispatches on: `LineString`,
`MultiLineString`, and the non-linear fallback (represented by the point the
source would use for distance/centroid computations). -/
inductive Geom
| line (l : LineG)
| multiLine (ls : List LineG)
| point (c : Coord)
deriving DecidableEq, Repr

/-- Normalized edge record (`SemiPath` dataclass / the columns the
normalizer keeps). -/
structure SemiPath where
  connection : Node × Node
  cod_id : String
  ctmt : String
  path_type : String
  geometry : Geom
deriving DecidableEq, Repr

/-- Edge record enriched with the computed `resistence` column. -/
structure SemiPathR extends SemiPath where
  resistence : ℚ
deriving DecidableEq, Repr

/-- Row of the raw input layer (`ssdmt` or `unsemt`) before normalization. -/
structure RawRow where
  COD_ID : String
  CTMT : String
  PAC_1 : String
  PAC_2 : String
  geometry : Geom
deriving DecidableEq, Repr

/-- A raw GeoDataFrame: a CRS tag, the set of columns the frame declares,
and its rows.  Row field values are meaningful whenever the corresponding
column is declared. -/
structure RawGdf where
  crs : String
  columns : List String
  rows : List RawRow
deriving DecidableEq, Repr

/-- The failures of the edge normalizer.  The source raises
`ValueError` for a CRS mismatch, `KeyError` for missing columns and
`ValueError` for a bad layer kind; the spec names these
`InvalidReferenceSystem`, `MissingColumns` and `InvalidEdgeKind`. -/
inductive NormError
| invalidReferenceSystem
| missingColumns
| invalidEdgeKind
deriving DecidableEq, Repr

/-- The expected CRS (`CRS = 'EPSG:4674'`). -/
def expectedCRS : String := "EPSG:4674"

/-- `required_cols` of `create_semi_path_gdf`. -/
def requiredCols : List String := ["COD_ID", "CTMT", "PAC_1", "PAC_2", "geometry"]

/-- The required columns absent from the frame (`required_cols - set(gdf.columns)`). -/
def missingCols (gdf : RawGdf) : List String :=
  requiredCols.filter (fun c => ¬ gdf.columns.contains c)

/-- Embedding of `create_semi_path_gdf`: CRS check, column check, layer-kind
check, then projection to the uniform edge record. -/
def createSemiPathGdf (gdf : RawGdf) (layer_name : String) : Except NormError (List SemiPath) :=
  if gdf.crs ≠ expectedCRS then .error .invalidReferenceSystem
  else if missingCols gdf ≠ [] then .error .missingColumns
  else if layer_name ≠ "ssdmt" ∧ layer_name ≠ "unsemt" then .error .invalidEdgeKind
  else .ok (gdf.rows.map fun r =>
    { connection := (r.PAC_1, r.PAC_2)
      cod_id := r.COD_ID
      ctmt := r.CTMT
      path_type := layer_name
      geometry := r.geometry })

/-- Row of the auxiliary `ssdmt` layer used by the resistance calculator
(`COD_ID`, `COMP` segment length in meters, `TIP_CND` conductor type). -/
structure SsdmtRow where
  COD_ID : String
  COMP : ℚ
  TIP_CND : String
deriving DecidableEq, Repr

/-- Row of the conductor-resistivity layer `segcon` (`COD_ID`, `R1` ohms/km). -/
structure SegconRow where
  COD_ID : String
  R1 : ℚ
deriving DecidableEq, Repr

/-- `comp_by_cod`: length lookup by the edge's own `COD_ID`; `none` models a
missing entry (a NaN result in pandas). -/
def compByCod (ssdmtL : List SsdmtRow) (cod : String) : Option ℚ :=
  (ssdmtL.find? (fun r => r.COD_ID == cod)).map (·.COMP)

/-- `tip_by_cod`: conductor-type lookup by `COD_ID`. -/
def tipByCod (ssdmtL : List SsdmtRow) (cod : String) : Option String :=
  (ssdmtL.find? (fun r => r.COD_ID == cod)).map (·.TIP_CND)

/-- `r1_by_tip`: per-kilometer resistance lookup by conductor type. -/
def r1ByTip (segconL : List SegconRow) (tip : String) : Option ℚ :=
  (segconL.find? (fun r => r.COD_ID == tip)).map (·.R1)

/-- The resistance computed for one segment edge:
`(comp / 1000) * r1` when both lookups resolve; any missing lookup
propagates as NaN which `fillna(0.0)` turns into `0`. -/
def segResist (ssdmtL : List SsdmtRow) (segconL : List SegconRow) (cod : String) : ℚ :=
  match compByCod ssdmtL cod, (tipByCod ssdmtL cod).bind (r1ByTip segconL) with
  | some comp, some r1 => (comp / 1000) * r1
  | _, _ => 0

/-- Lowercasing as pandas `.str.lower()` applies it to the `path_type`
column (character-wise; the layer kinds are ASCII).  Implemented over the
character list so that it evaluates inside the kernel. -/
def lowerStr (s : String) : String := ⟨s.data.map Char.toLower⟩

/-- Embedding of `add_resistence_to_semi_paths`: segment (`ssdmt`) edges get
the looked-up resistance, all other edges (switches, `unsemt`) get `0.0`;
unresolved lookups are filled with `0.0`. -/
def addResistenceToSemiPaths (sps : List SemiPath) (ssdmtL : List SsdmtRow)
    (segconL : List SegconRow) : List SemiPathR :=
  sps.map fun sp =>
    { toSemiPath := sp
      resistence :=
        if lowerStr sp.path_type = "ssdmt" then segResist ssdmtL segconL sp.cod_id else 0 }

/-! ## Geometry endpoint extraction and lengths -/

/-- Keep the first occurrence of each coordinate (used to model the point
set of a shapely boundary in first-appearance order). -/
def dedupFirst (cs : List Coord) : List Coord :=
  cs.foldl (fun acc c => if c ∈ acc then acc else acc ++ [c]) []

/-- Embedding of `_geom_endpoints_xy`.  For a `LineString` the boundary
(ordered start/end points) and the `isinstance` fallback both yield the
first and last vertex.  For a `MultiLineString` the shapely boundary is the
set of component endpoints of odd multiplicity (mod-2 rule), modelled here
in first-appearance order; when it has fewer than two points the source
falls back to the first vertex of the first component and the last vertex
of the last component.  Non-linear geometries fall back to the centroid
twice.  An empty `MultiLineString` would make the source error; it is
mapped to the origin and never arises from valid data. -/
def geomEndpointsXY : Geom → Coord × Coord
| .line l => (l.c0, l.lastCoord)
| .multiLine ls =>
    let eps := ls.flatMap (fun l => [l.c0, l.lastCoord])
    let bpts := (dedupFirst eps).filter (fun c => eps.count c % 2 = 1)
    if 2 ≤ bpts.length then (bpts.head?.getD (0, 0), bpts.getLast?.getD (0, 0))
    else
      match ls.head?, ls.getLast? with
      | some f, some lst => (f.c0, lst.lastCoord)
      | _, _ => ((0, 0), (0, 0))
| .point c => (c, c)

/-- Embedding of `_row_pac_endpoints` followed by a dictionary lookup:
the mapping `{a: p0, b: p1}` with Python overwrite semantics when `a = b`. -/
def pacXY (sp : SemiPath) (n : Node) : Option Coord :=
  let a := sp.connection.1
  let b := sp.connection.2
  let ep := geomEndpointsXY sp.geometry
  if n == b then some ep.2 else if n == a then some ep.1 else none

/-- The items of the `_row_pac_endpoints` dictionary, in Python dict order. -/
def pacItems (sp : SemiPath) : List (Node × Coord) :=
  let a := sp.connection.1
  let b := sp.connection.2
  let ep := geomEndpointsXY sp.geometry
  if a == b then [(a, ep.2)] else [(a, ep.1), (b, ep.2)]

/-- Embedding of `_choose_nearest_endpoint_pac`: the endpoint identifier
whose coordinate has the smallest geodesic distance to the point
(Python `min` keeps the first minimum). -/
def chooseNearestEndpointPac (gm : GeoModel) (sp : SemiPath) (pt : Coord) : Node :=
  match pacItems sp with
  | [] => ""
  | it :: rest =>
      (rest.foldl (fun best q => if gm.geod q.2 pt < gm.geod best.2 pt then q else best) it).1

/-- Sum of point-to-point geodesic distances over consecutive vertices
(pyproj `Geod.line_length`). -/
def lineLenM (gm : GeoModel) (l : LineG) : ℚ :=
  ((l.coords.zip l.coords.tail).map (fun pq => gm.geod pq.1 pq.2)).sum

/-- Embedding of `_geodesic_length_m`: line length for a `LineString`, the
sum over components for a `MultiLineString`, `0.0` otherwise. -/
def geodesicLengthM (gm : GeoModel) : Geom → ℚ
| .line l => lineLenM gm l
| .multiLine ls => (ls.map (lineLenM gm)).sum
| .point _ => 0

/-- Embedding of `min_end_distance` inside `find_nearest_semi_path`:
the smallest planar distance from the query point to an endpoint of the
geometry; `⊤` models `float('inf')` for empty geometry.  Components of a
`MultiLineString` contribute both end vertices when they have at least two
coordinates. -/
def minEndDistance (gm : GeoModel) (pt : Coord) : Geom → WithTop ℚ
| .line l => ((min (gm.planar l.c0 pt) (gm.planar l.lastCoord pt) : ℚ) : WithTop ℚ)
| .multiLine ls =>
    let ends := ls.foldr (fun l acc =>
      if l.rest = [] then acc else l.c0 :: l.lastCoord :: acc) []
    ends.foldr (fun c acc => min ((gm.planar c pt : ℚ) : WithTop ℚ) acc) ⊤
| .point c => ((gm.planar c pt : ℚ) : WithTop ℚ)

/-- Embedding of `find_nearest_semi_path`: the first row whose
`min_end_distance` is minimal (numpy `argmin` keeps the first minimum);
`none` models the error raised on an empty frame. -/
def findNearestSemiPath (gm : GeoModel) (rows : List SemiPath) (pt : Coord) :
    Option SemiPath :=
  match rows with
  | [] => none
  | r :: rest => some (rest.foldl (fun best e =>
      if minEndDistance gm pt e.geometry < minEndDistance gm pt best.geometry then e
      else best) r)

/-! ## Graph construction (`_build_graph`) -/

/-- Adjacency entry `(neighbor, weight, row index)`. -/
abbrev AdjEntry := Node × ℚ × Nat

/-- The adjacency dictionary, as an insertion-ordered association list. -/
abbrev AdjList := List (Node × List AdjEntry)

/-- Association-list lookup (Python `dict.get`). -/
def lookupL {α : Type} (m : List (Node × α)) (k : Node) : Option α :=
  (m.find? (fun p => p.1 == k)).map (·.2)

def keysOf {α : Type} (m : List (Node × α)) : List Node := m.map (·.1)

/-- Association-list update with Python dict semantics: overwrite the entry
holding the key (keeping its position), append otherwise. -/
def updL {α : Type} : List (Node × α) → Node → α → List (Node × α)
| [], k, v => [(k, v)]
| p :: m, k, v => if p.1 == k then (k, v) :: m else p :: updL m k v

/-- `adj.get(u, [])`. -/
def adjGet (adj : AdjList) (u : Node) : List AdjEntry := (lookupL adj u).getD []

/-- `adj.setdefault(k, []).append(e)`. -/
def adjInsert : AdjList → Node → AdjEntry → AdjList
| [], k, e => [(k, [e])]
| p :: m, k, e => if p.1 == k then (p.1, p.2 ++ [e]) :: m else p :: adjInsert m k e

/-- The adjacency structure of `_build_graph`: for row `i` joining `a, b`
with weight `w`, the two symmetric entries are appended in source order. -/
def buildAdj (rows : List SemiPathR) : AdjList :=
  rows.enum.foldl (fun adj ir =>
    let i := ir.1
    let r := ir.2
    let a := r.connection.1
    let b := r.connection.2
    let w := r.resistence
    adjInsert (adjInsert adj a (b, w, i)) b (a, w, i)) []

/-- `node_xy.setdefault` (first write wins). -/
def xyInsert : List (Node × Coord) → Node → Coord → List (Node × Coord)
| [], k, v => [(k, v)]
| p :: m, k, v => if p.1 == k then p :: m else p :: xyInsert m k v

/-- The node→coordinate index of `_build_graph`. -/
def buildNodeXY (rows : List SemiPathR) : List (Node × Coord) :=
  rows.foldl (fun m r =>
    let a := r.connection.1
    let b := r.connection.2
    let ep := geomEndpointsXY r.geometry
    xyInsert (xyInsert m a (if a == b then ep.2 else ep.1)) b ep.2) []

/-- Equality of the frozensets `{a, b}` and `{u, v}`. -/
def sameSet (a b u v : Node) : Bool := (a == u && b == v) || (a == v && b == u)

/-- The unordered-pair→row-indices dictionary, keyed by the pair as first
inserted. -/
abbrev P2R := List ((Node × Node) × List Nat)

/-- `pair_to_rows.setdefault(frozenset((a, b)), []).append(i)`. -/
def p2rInsert : P2R → Node → Node → Nat → P2R
| [], a, b, i => [((a, b), [i])]
| p :: m, a, b, i =>
  if sameSet p.1.1 p.1.2 a b then (p.1, p.2 ++ [i]) :: m else p :: p2rInsert m a b i

def buildP2R (rows : List SemiPathR) : P2R :=
  rows.enum.foldl (fun m ir => p2rInsert m ir.2.connection.1 ir.2.connection.2 ir.1) []

/-- `pair_to_rows.get(frozenset((u, v)), [])`. -/
def p2rGet (m : P2R) (u v : Node) : List Nat :=
  ((m.find? (fun p => sameSet p.1.1 p.1.2 u v)).map (·.2)).getD []

/-! ## Dijkstra (`_dijkstra`)

The priority queue is modelled as a multiset (list) whose pop returns the
lexicographically least `(distance, node)` pair, which is exactly what
`heapq` yields for these tuples.  The `while` loop is driven by an explicit
fuel; `dijkstraFuel` exceeds the total number of pops the loop can perform
(one initial entry plus at most one push per adjacency entry), so the run
always ends by queue exhaustion or by popping the goal, as in the source.
The `trace` field records each finalization event `(d, u)` in order; it is
specification instrumentation, and the source's `visited` set is its node
projection. -/

structure DState where
  dist : List (Node × ℚ)
  prev : List (Node × Node)
  pq : List (ℚ × Node)
  trace : List (ℚ × Node)
deriving DecidableEq, Repr

/-- The `visited` set of the source, in finalization order. -/
def visitedOf (s : DState) : List Node := s.trace.map (·.2)

/-- Lexicographic comparison of character lists: the order Python uses for
`str` comparison inside heap tuples (code-point lexicographic).  It agrees
with Lean's list order (`charListLt_iff_lt`) but, unlike the builtin
`String` comparison, evaluates inside the kernel. -/
def charListLt : List Char → List Char → Bool
| [], [] => false
| [], _ :: _ => true
| _ :: _, [] => false
| c :: cs, d :: ds => if c < d then true else if d < c then false else charListLt cs ds

/-- Python string comparison. -/
def strLt (a b : String) : Bool := charListLt a.data b.data

/-- Strict lexicographic order on heap entries, matching Python tuple
comparison on `(float, str)`. -/
def pqLt (a b : ℚ × Node) : Bool :=
  decide (a.1 < b.1) || (a.1 == b.1 && strLt a.2 b.2)

/-- The least entry of the queue (first minimum). -/
def minEntryPq : List (ℚ × Node) → Option (ℚ × Node)
| [] => none
| x :: xs => some (xs.foldl (fun m y => if pqLt y m then y else m) x)

/-- Remove the first occurrence of an entry. -/
def eraseFirstPq : List (ℚ × Node) → (ℚ × Node) → List (ℚ × Node)
| [], _ => []
| x :: xs, e => if x == e then xs else x :: eraseFirstPq xs e

/-- `nd < dist.get(v, float('inf'))`. -/
def improves (dist : List (Node × ℚ)) (v : Node) (nd : ℚ) : Bool :=
  match lookupL dist v with
  | none => true
  | some dv => decide (nd < dv)

/-- One relaxation of the edge `u → e.1` with weight `e.2.1` at tentative
distance `d + w`. -/
def relaxOne (u : Node) (d : ℚ) (s : DState) (e : AdjEntry) : DState :=
  let v := e.1
  let w := e.2.1
  let nd := d + w
  if improves s.dist v nd then
    { s with dist := updL s.dist v nd, prev := updL s.prev v u, pq := s.pq ++ [(nd, v)] }
  else s

/-- The `for v, w, _ in adj.get(u, [])` relaxation loop. -/
def relaxAll (adj : AdjList) (u : Node) (d : ℚ) (s : DState) : DState :=
  (adjGet adj u).foldl (relaxOne u d) s

/-- The main `while pq` loop of `_dijkstra`. -/
def dijkstraLoop (adj : AdjList) (goal : Node) : Nat → DState → DState
| 0, s => s
| fuel + 1, s =>
  match minEntryPq s.pq with
  | none => s
  | some du =>
    let s0 : DState := { s with pq := eraseFirstPq s.pq du }
    if du.2 ∈ visitedOf s then dijkstraLoop adj goal fuel s0
    else
      let s1 : DState := { s0 with trace := s0.trace ++ [du] }
      if du.2 == goal then s1
      else dijkstraLoop adj goal fuel (relaxAll adj du.2 du.1 s1)

/-- Total number of adjacency entries. -/
def totalDeg (adj : AdjList) : Nat := (adj.map (fun p => p.2.length)).sum

/-- An upper bound on the number of loop iterations: one pop for the
initial entry and at most one per adjacency entry pushed, plus one. -/
def dijkstraFuel (adj : AdjList) : Nat := totalDeg adj + 2

/-- `dist = {start: 0.0}; pq = [(0.0, start)]`. -/
def initState (start : Node) : DState := ⟨[(start, 0)], [], [(0, start)], []⟩

def dijkstraRun (adj : AdjList) (start goal : Node) : DState :=
  dijkstraLoop adj goal (dijkstraFuel adj) (initState start)

/-- Embedding of `_dijkstra`, returning `(prev, dist)`. -/
def dijkstra (adj : AdjList) (start goal : Node) :
    List (Node × Node) × List (Node × ℚ) :=
  let s := dijkstraRun adj start goal
  (s.prev, s.dist)

/-! ## Reconstruction and fallback -/

/-- The predecessor-chasing loop of `_reconstruct`, with fuel bounding the
`while` loop.  `none` covers both a broken chain (the source returns `[]`)
and fuel exhaustion (the source would loop forever, which the search never
produces: its predecessor chains are strictly rank-decreasing). -/
def reconstructChain (prev : List (Node × Node)) (start : Node) :
    Nat → Node → Option (List Node)
| 0, _ => none
| fuel + 1, cur =>
  if cur == start then some [start]
  else
    match lookupL prev cur with
    | none => none
    | some u => (reconstructChain prev start fuel u).map (fun l => l ++ [cur])

/-- Embedding of `_reconstruct`. -/
def reconstructPath (prev : List (Node × Node)) (start target : Node) : List Node :=
  (reconstructChain prev start (prev.length + 1) target).getD []

/-- Embedding of `_closest_reachable_node`: among the keys of `dist` (in
insertion order) having a coordinate, the first one geodesically nearest
the goal coordinate. -/
def closestReachableNode (gm : GeoModel) (dist : List (Node × ℚ))
    (nodeXY : List (Node × Coord)) (goalXY : Coord) : Option Node :=
  (dist.foldl (fun best p =>
    match lookupL nodeXY p.1 with
    | none => best
    | some xy =>
      let d := gm.geod xy goalXY
      match best with
      | none => some (p.1, d)
      | some bn => if d < bn.2 then some (p.1, d) else best) none).map (·.1)

/-- Geodesic length of the row at index `i` (the `min` key of
`_nodes_to_rows_path`); indices produced by `buildP2R` are always in
range, so the out-of-range value is never consulted. -/
def rowLen (gm : GeoModel) (gdf : List SemiPathR) (i : Nat) : ℚ :=
  match gdf[i]? with
  | some r => geodesicLengthM gm r.geometry
  | none => 0

/-- First index of minimal geodesic length (Python `min` keeps the first
minimum). -/
def argminIdx (gm : GeoModel) (gdf : List SemiPathR) : List Nat → Option Nat
| [] => none
| i :: rest =>
    some (rest.foldl (fun best j => if rowLen gm gdf j < rowLen gm gdf best then j else best) i)

/-- Embedding of `_nodes_to_rows_path`: for each consecutive node pair,
select the connecting row of smallest geodesic length (skipping pairs with
no candidates), then fetch the rows. -/
def nodesToRowsPath (gm : GeoModel) (gdf : List SemiPathR) (nodes : List Node)
    (p2r : P2R) : List SemiPathR :=
  if nodes.length < 2 then []
  else
    let rowIds := (nodes.zip nodes.tail).foldl (fun acc uv =>
      match argminIdx gm gdf (p2rGet p2r uv.1 uv.2) with
      | none => acc
      | some best => acc ++ [best]) []
    rowIds.filterMap (fun i => gdf[i]?)

/-- Embedding of `shortest_path_by_dijkstra`: build the enriched frame and
graph, run the search, return the full path when the predecessor chain
reaches the destination, and otherwise fall back to the reachable node
geodesically nearest the destination coordinate; the second component is
the completeness flag. -/
def shortestPathByDijkstra (gm : GeoModel) (start_pac dest_pac : Node)
    (semiPaths : List SemiPath) (ssdmtL : List SsdmtRow) (segconL : List SegconRow) :
    List SemiPathR × Bool :=
  let gdf := addResistenceToSemiPaths semiPaths ssdmtL segconL
  let adj := buildAdj gdf
  let nodeXY := buildNodeXY gdf
  let p2r := buildP2R gdf
  let pd := dijkstra adj start_pac dest_pac
  let pathNodes := reconstructPath pd.1 start_pac dest_pac
  if pathNodes ≠ [] then (nodesToRowsPath gm gdf pathNodes p2r, true)
  else
    match gdf.find? (fun r => r.connection.1 == dest_pac || r.connection.2 == dest_pac) with
    | none => ([], false)
    | some row =>
      match pacXY row.toSemiPath dest_pac with
      | none => ([], false)
      | some destXY =>
        match closestReachableNode gm pd.2 nodeXY destXY with
        | none => ([], false)
        | some best => (nodesToRowsPath gm gdf (reconstructPath pd.1 start_pac best) p2r, false)

/-- Graph reachability along adjacency entries, the specification-side
notion of "destination reachable from start within the scoped circuit". -/
inductive ReachR (adj : AdjList) (start : Node) : Node → Prop
| base : ReachR adj start start
| step {u : Node} {e : AdjEntry} : ReachR adj start u → e ∈ adjGet adj u → ReachR adj start e.1


/-! ## Association-list lemmas -/

theorem lookupL_nil {α : Type} (k : Node) : lookupL ([] : List (Node × α)) k = none := rfl

theorem lookupL_cons {α : Type} (p : Node × α) (m : List (Node × α)) (k : Node) :
    lookupL (p :: m) k = if p.1 = k then some p.2 else lookupL m k := by
  by_cases h : p.1 = k <;> simp [lookupL, List.find?_cons, h]

theorem lookupL_some_mem {α : Type} {m : List (Node × α)} {k : Node} {v : α}
    (h : lookupL m k = some v) : (k, v) ∈ m := by
  induction m with
  | nil => simp [lookupL_nil] at h
  | cons p m ih =>
    rw [lookupL_cons] at h
    by_cases hp : p.1 = k
    · subst hp
      rw [if_pos rfl] at h
      obtain rfl : p.2 = v := Option.some_inj.mp h
      exact List.mem_cons_self _ _
    · rw [if_neg hp] at h
      exact List.mem_cons_of_mem _ (ih h)

theorem mem_keysOf_of_lookupL {α : Type} {m : List (Node × α)} {k : Node} {v : α}
    (h : lookupL m k = some v) : k ∈ keysOf m :=
  List.mem_map.mpr ⟨(k, v), lookupL_some_mem h, rfl⟩

theorem lookupL_isSome_iff {α : Type} (m : List (Node × α)) (k : Node) :
    (lookupL m k).isSome ↔ k ∈ keysOf m := by
  induction m with
  | nil => simp [lookupL_nil, keysOf]
  | cons p m ih =>
    rw [lookupL_cons]
    by_cases hp : p.1 = k
    · simp [keysOf, hp]
    · rw [if_neg hp, ih]
      simp only [keysOf, List.map_cons, List.mem_cons]
      constructor
      · exact fun h => Or.inr h
      · rintro (h | h)
        · exact absurd h.symm hp
        · exact h

theorem lookupL_eq_none_of_not_mem {α : Type} {m : List (Node × α)} {k : Node}
    (h : k ∉ keysOf m) : lookupL m k = none := by
  cases hl : lookupL m k with
  | none => rfl
  | some v => exact absurd (mem_keysOf_of_lookupL hl) h

theorem lookupL_updL {α : Type} (m : List (Node × α)) (k : Node) (v : α) (u : Node) :
    lookupL (updL m k v) u = if u = k then some v else lookupL m u := by
  induction m with
  | nil =>
    show lookupL [(k, v)] u = _
    rw [lookupL_cons]
    by_cases h : u = k
    · simp [h]
    · rw [if_neg (fun hh : k = u => h hh.symm), if_neg h, lookupL_nil]
  | cons p m ih =>
    by_cases hpk : p.1 = k
    · rw [show updL (p :: m) k v = (k, v) :: m by simp [updL, hpk]]
      rw [lookupL_cons, lookupL_cons]
      by_cases huk : u = k
      · simp [huk]
      · rw [if_neg (fun hh : k = u => huk hh.symm), if_neg huk,
          if_neg (fun hh : p.1 = u => huk (hh.symm.trans hpk))]
    · rw [show updL (p :: m) k v = p :: updL m k v by simp [updL, hpk]]
      rw [lookupL_cons, lookupL_cons]
      by_cases hpu : p.1 = u
      · have huk : ¬ u = k := fun h => hpk (hpu.trans h)
        rw [if_pos hpu, if_neg huk, if_pos hpu]
      · rw [if_neg hpu, ih]
        by_cases huk : u = k
        · rw [if_pos huk, if_pos huk]
        · rw [if_neg huk, if_neg huk, if_neg hpu]

theorem mem_updL {α : Type} {m : List (Node × α)} {k : Node} {v : α} {p : Node × α}
    (h : p ∈ updL m k v) : p ∈ m ∨ p = (k, v) := by
  induction m with
  | nil =>
    simp only [updL] at h
    exact Or.inr (List.mem_singleton.mp h)
  | cons q m ih =>
    by_cases hqk : q.1 = k
    · rw [show updL (q :: m) k v = (k, v) :: m by simp [updL, hqk]] at h
      rcases List.mem_cons.mp h with rfl | h2
      · exact Or.inr rfl
      · exact Or.inl (List.mem_cons_of_mem _ h2)
    · rw [show updL (q :: m) k v = q :: updL m k v by simp [updL, hqk]] at h
      rcases List.mem_cons.mp h with rfl | h2
      · exact Or.inl (List.mem_cons_self _ _)
      · rcases ih h2 with h3 | h3
        · exact Or.inl (List.mem_cons_of_mem _ h3)
        · exact Or.inr h3

theorem keysOf_updL {α : Type} (m : List (Node × α)) (k : Node) (v : α) :
    keysOf (updL m k v) = if k ∈ keysOf m then keysOf m else keysOf m ++ [k] := by
  induction m with
  | nil => simp [updL, keysOf]
  | cons p m ih =>
    by_cases hpk : p.1 = k
    · rw [show updL (p :: m) k v = (k, v) :: m by simp [updL, hpk]]
      have hk : k ∈ keysOf (p :: m) := by
        simp only [keysOf, List.map_cons, List.mem_cons]
        exact Or.inl hpk.symm
      rw [if_pos hk]
      show k :: keysOf m = p.1 :: keysOf m
      rw [hpk]
    · rw [show updL (p :: m) k v = p :: updL m k v by simp [updL, hpk]]
      have hmem : (k ∈ keysOf (p :: m)) ↔ (k ∈ keysOf m) := by
        simp only [keysOf, List.map_cons, List.mem_cons]
        constructor
        · rintro (h | h)
          · exact absurd h.symm hpk
          · exact h
        · exact fun h => Or.inr h
      by_cases hk : k ∈ keysOf m
      · rw [if_pos (hmem.mpr hk)]
        show p.1 :: keysOf (updL m k v) = p.1 :: keysOf m
        rw [ih, if_pos hk]
      · rw [if_neg (fun h => hk (hmem.mp h))]
        show p.1 :: keysOf (updL m k v) = (p.1 :: keysOf m) ++ [k]
        rw [ih, if_neg hk]
        simp

theorem keysOf_updL_nodup {α : Type} {m : List (Node × α)} (k : Node) (v : α)
    (h : (keysOf m).Nodup) : (keysOf (updL m k v)).Nodup := by
  rw [keysOf_updL]
  by_cases hk : k ∈ keysOf m
  · simpa [hk]
  · rw [if_neg hk]
    exact List.Nodup.append h (List.nodup_singleton k) (by simpa using hk)

/-! ## adjGet / adjInsert lemmas -/

theorem adjGet_nil (u : Node) : adjGet [] u = [] := rfl

theorem adjGet_cons (p : Node × List AdjEntry) (m : AdjList) (u : Node) :
    adjGet (p :: m) u = if p.1 = u then p.2 else adjGet m u := by
  by_cases h : p.1 = u <;> simp [adjGet, lookupL_cons, h]

theorem adjGet_adjInsert (m : AdjList) (k : Node) (e : AdjEntry) (u : Node) :
    adjGet (adjInsert m k e) u = if u = k then adjGet m u ++ [e] else adjGet m u := by
  induction m with
  | nil =>
    show adjGet [(k, [e])] u = _
    rw [adjGet_cons]
    by_cases h : u = k
    · subst h
      simp [adjGet_nil]
    · rw [if_neg (fun hh : k = u => h hh.symm), if_neg h]
  | cons p m ih =>
    by_cases hpk : p.1 = k
    · rw [show adjInsert (p :: m) k e = (p.1, p.2 ++ [e]) :: m by simp [adjInsert, hpk]]
      rw [adjGet_cons, adjGet_cons]
      by_cases huk : u = k
      · rw [if_pos (hpk.trans huk.symm), if_pos huk, if_pos (hpk.trans huk.symm)]
      · rw [if_neg (fun hh : p.1 = u => huk (hh.symm.trans hpk)), if_neg huk,
          if_neg (fun hh : p.1 = u => huk (hh.symm.trans hpk))]
    · rw [show adjInsert (p :: m) k e = p :: adjInsert m k e by simp [adjInsert, hpk]]
      rw [adjGet_cons, adjGet_cons]
      by_cases hpu : p.1 = u
      · have huk : ¬ u = k := fun h => hpk (hpu.trans h)
        rw [if_pos hpu, if_neg huk, if_pos hpu]
      · rw [if_neg hpu, ih]
        by_cases huk : u = k
        · rw [if_pos huk, if_pos huk, if_neg hpu]
        · rw [if_neg huk, if_neg huk, if_neg hpu]

/-! ## xyInsert lemmas -/

theorem lookupL_xyInsert_of_isSome {m : List (Node × Coord)} {u : Node}
    (k : Node) (v : Coord) (h : (lookupL m u).isSome) :
    lookupL (xyInsert m k v) u = lookupL m u := by
  induction m with
  | nil => simp [lookupL_nil] at h
  | cons p m ih =>
    rw [lookupL_cons] at h
    by_cases hpk : p.1 = k
    · rw [show xyInsert (p :: m) k v = p :: m by simp [xyInsert, hpk]]
    · rw [show xyInsert (p :: m) k v = p :: xyInsert m k v by simp [xyInsert, hpk]]
      rw [lookupL_cons, lookupL_cons]
      by_cases hpu : p.1 = u
      · rw [if_pos hpu, if_pos hpu]
      · rw [if_neg hpu, if_neg hpu]
        rw [if_neg hpu] at h
        exact ih h

theorem lookupL_xyInsert_self (m : List (Node × Coord)) (k : Node) (v : Coord) :
    (lookupL (xyInsert m k v) k).isSome := by
  induction m with
  | nil =>
    show (lookupL [(k, v)] k).isSome
    rw [lookupL_cons, if_pos rfl]
    rfl
  | cons p m ih =>
    by_cases hpk : p.1 = k
    · rw [show xyInsert (p :: m) k v = p :: m by simp [xyInsert, hpk]]
      rw [lookupL_cons, if_pos hpk]
      rfl
    · rw [show xyInsert (p :: m) k v = p :: xyInsert m k v by simp [xyInsert, hpk]]
      rw [lookupL_cons, if_neg hpk]
      exact ih

/-! ## sameSet and p2r lemmas -/

theorem sameSet_iff (a b u v : Node) :
    sameSet a b u v = true ↔ (a = u ∧ b = v) ∨ (a = v ∧ b = u) := by
  simp [sameSet]

theorem sameSet_self (a b : Node) : sameSet a b a b = true := by
  simp [sameSet_iff]

theorem sameSet_swap (a b u v : Node) : sameSet b a u v = sameSet a b u v := by
  cases hab : sameSet a b u v with
  | true =>
    rcases (sameSet_iff a b u v).mp hab with ⟨rfl, rfl⟩ | ⟨rfl, rfl⟩ <;>
      · rw [sameSet_iff]
        tauto
  | false =>
    cases hba : sameSet b a u v with
    | false => rfl
    | true =>
      exfalso
      have : sameSet a b u v = true := by
        rcases (sameSet_iff b a u v).mp hba with ⟨rfl, rfl⟩ | ⟨rfl, rfl⟩ <;>
          · rw [sameSet_iff]
            tauto
      rw [hab] at this
      cases this

theorem sameSet_comm (a b u v : Node) : sameSet a b u v = sameSet u v a b := by
  cases h : sameSet u v a b with
  | true =>
    rcases (sameSet_iff u v a b).mp h with ⟨rfl, rfl⟩ | ⟨rfl, rfl⟩ <;>
      · rw [sameSet_iff]
        tauto
  | false =>
    cases h2 : sameSet a b u v with
    | false => rfl
    | true =>
      exfalso
      have : sameSet u v a b = true := by
        rcases (sameSet_iff a b u v).mp h2 with ⟨rfl, rfl⟩ | ⟨rfl, rfl⟩ <;>
          · rw [sameSet_iff]
            tauto
      rw [h] at this
      cases this

theorem sameSet_congr {a b x y : Node} (h : sameSet a b x y = true) (u v : Node) :
    sameSet a b u v = sameSet x y u v := by
  rcases (sameSet_iff a b x y).mp h with ⟨rfl, rfl⟩ | ⟨h1, h2⟩
  · rfl
  · subst h1
    subst h2
    exact (sameSet_swap b a u v).symm ▸ (sameSet_swap a b u v).symm

theorem p2rGet_nil (u v : Node) : p2rGet [] u v = [] := rfl

theorem p2rGet_cons (p : (Node × Node) × List Nat) (m : P2R) (u v : Node) :
    p2rGet (p :: m) u v =
      if sameSet p.1.1 p.1.2 u v = true then p.2 else p2rGet m u v := by
  by_cases h : sameSet p.1.1 p.1.2 u v = true <;> simp [p2rGet, List.find?_cons, h]

theorem p2rGet_p2rInsert (m : P2R) (a b : Node) (i : Nat) (u v : Node) :
    p2rGet (p2rInsert m a b i) u v =
      if sameSet a b u v = true then p2rGet m u v ++ [i] else p2rGet m u v := by
  induction m with
  | nil =>
    show p2rGet [((a, b), [i])] u v = _
    rw [p2rGet_cons]
    by_cases h : sameSet a b u v = true
    · rw [if_pos h, if_pos h, p2rGet_nil]
      rfl
    · rw [if_neg h, if_neg h, p2rGet_nil]
  | cons p m ih =>
    by_cases hpk : sameSet p.1.1 p.1.2 a b = true
    · rw [show p2rInsert (p :: m) a b i = (p.1, p.2 ++ [i]) :: m by simp [p2rInsert, hpk]]
      rw [p2rGet_cons, p2rGet_cons]
      have hc : sameSet p.1.1 p.1.2 u v = sameSet a b u v := sameSet_congr hpk u v
      by_cases hq : sameSet a b u v = true
      · rw [if_pos (hc ▸ hq), if_pos hq, if_pos (hc ▸ hq)]
      · rw [if_neg (fun hh => hq (hc ▸ hh)), if_neg hq, if_neg (fun hh => hq (hc ▸ hh))]
    · rw [show p2rInsert (p :: m) a b i = p :: p2rInsert m a b i by simp [p2rInsert, hpk]]
      rw [p2rGet_cons, p2rGet_cons]
      by_cases hpq : sameSet p.1.1 p.1.2 u v = true
      · have hq : ¬ sameSet a b u v = true := by
          intro hq
          apply hpk
          have h1 : sameSet p.1.1 p.1.2 a b = sameSet u v a b := sameSet_congr hpq a b
          rw [h1, ← sameSet_comm a b u v]
          exact hq
        rw [if_pos hpq, if_neg hq, if_pos hpq]
      · rw [if_neg hpq, ih]
        by_cases hq : sameSet a b u v = true
        · rw [if_pos hq, if_pos hq, if_neg hpq]
        · rw [if_neg hq, if_neg hq, if_neg hpq]

/-! ## Priority-queue order lemmas -/

theorem charListLt_iff_lex (l1 l2 : List Char) :
    charListLt l1 l2 = true ↔ List.Lex (· < ·) l1 l2 := by
  induction l1 generalizing l2 with
  | nil =>
    cases l2 with
    | nil =>
      simp only [charListLt, Bool.false_eq_true, false_iff]
      intro h
      cases h
    | cons d ds =>
      simp only [charListLt, true_iff]
      exact List.Lex.nil
  | cons c cs ih =>
    cases l2 with
    | nil =>
      simp only [charListLt, Bool.false_eq_true, false_iff]
      intro h
      cases h
    | cons d ds =>
      simp only [charListLt]
      by_cases h1 : c < d
      · simp only [h1, if_pos, true_iff]
        exact List.Lex.rel h1
      · by_cases h2 : d < c
        · simp only [h1, h2, if_neg, if_pos, not_false_iff, Bool.false_eq_true, false_iff]
          intro h
          cases h with
          | rel hh => exact h1 hh
          | cons hh => exact absurd h2 (lt_irrefl c)
        · have hcd : c = d := le_antisymm (le_of_not_lt h2) (le_of_not_lt h1)
          subst hcd
          simp only [h1, h2, if_neg, not_false_iff, ih]
          constructor
          · exact fun h => List.Lex.cons h
          · intro h
            cases h with
            | rel hh => exact absurd hh h1
            | cons hh => exact hh

theorem strLt_iff (a b : String) : strLt a b = true ↔ a < b := by
  rw [String.lt_iff_toList_lt]
  exact charListLt_iff_lex a.data b.data

theorem pqLt_iff (a b : ℚ × Node) :
    pqLt a b = true ↔ a.1 < b.1 ∨ (a.1 = b.1 ∧ a.2 < b.2) := by
  simp [pqLt, strLt_iff]

theorem pqLt_irrefl (q : ℚ × Node) : pqLt q q = false := by
  cases h : pqLt q q with
  | false => rfl
  | true =>
    rw [pqLt_iff] at h
    rcases h with h | ⟨_, h⟩ <;> exact absurd h (lt_irrefl _)

theorem pqLt_trans {a b c : ℚ × Node} (h1 : pqLt a b = true) (h2 : pqLt b c = true) :
    pqLt a c = true := by
  rw [pqLt_iff] at h1 h2 ⊢
  rcases h1 with h1 | ⟨h1e, h1s⟩ <;> rcases h2 with h2 | ⟨h2e, h2s⟩
  · exact Or.inl (lt_trans h1 h2)
  · exact Or.inl (h2e ▸ h1)
  · exact Or.inl (h1e ▸ h2)
  · exact Or.inr ⟨h1e.trans h2e, lt_trans h1s h2s⟩

theorem pqLt_of_not_of_lt {y b res : ℚ × Node}
    (h1 : pqLt y b = false) (h2 : pqLt y res = true) : pqLt b res = true := by
  have h1p : ¬ (y.1 < b.1 ∨ (y.1 = b.1 ∧ y.2 < b.2)) := by
    rw [← pqLt_iff, h1]
    simp
  rw [pqLt_iff] at h2 ⊢
  have hble : b.1 ≤ y.1 := le_of_not_lt (fun h => h1p (Or.inl h))
  rcases h2 with h2 | ⟨h2e, h2s⟩
  · exact Or.inl (lt_of_le_of_lt hble h2)
  · rcases lt_or_eq_of_le hble with hlt | heq
    · exact Or.inl (h2e ▸ hlt)
    · have hs : b.2 ≤ y.2 := le_of_not_lt (fun h => h1p (Or.inr ⟨heq.symm, h⟩))
      exact Or.inr ⟨heq.trans h2e, lt_of_le_of_lt hs h2s⟩

theorem foldlPqMin_spec (l : List (ℚ × Node)) (x : ℚ × Node) :
    (l.foldl (fun m y => if pqLt y m then y else m) x) ∈ x :: l ∧
      ∀ q ∈ x :: l, pqLt q (l.foldl (fun m y => if pqLt y m then y else m) x) = false := by
  induction l generalizing x with
  | nil =>
    refine ⟨List.mem_cons_self _ _, ?_⟩
    intro q hq
    obtain rfl := List.mem_singleton.mp hq
    simp only [List.foldl_nil]
    exact pqLt_irrefl q
  | cons y ys ih =>
    simp only [List.foldl_cons]
    obtain ⟨hmem, hmin⟩ := ih (if pqLt y x then y else x)
    have hbres := hmin (if pqLt y x then y else x) (List.mem_cons_self _ _)
    constructor
    · rcases List.mem_cons.mp hmem with h | h
      · rw [h]
        by_cases hy : pqLt y x = true
        · rw [if_pos hy]
          exact List.mem_cons_of_mem _ (List.mem_cons_self _ _)
        · rw [if_neg hy]
          exact List.mem_cons_self _ _
      · exact List.mem_cons_of_mem _ (List.mem_cons_of_mem _ h)
    · intro q hq
      rcases List.mem_cons.mp hq with rfl | hq2
      · by_cases hy : pqLt y q = true
        · rw [if_pos hy] at hbres
          cases hres : pqLt q (ys.foldl (fun m z => if pqLt z m then z else m)
              (if pqLt y q then y else q)) with
          | false => rfl
          | true =>
            rw [if_pos hy] at hres
            have := pqLt_trans hy hres
            rw [this] at hbres
            cases hbres
        · rw [if_neg hy] at hbres ⊢
          exact hbres
      · rcases List.mem_cons.mp hq2 with rfl | hq3
        · by_cases hy : pqLt q x = true
          · rw [if_pos hy] at hbres ⊢
            exact hbres
          · rw [if_neg hy] at hbres ⊢
            cases hres : pqLt q (ys.foldl (fun m z => if pqLt z m then z else m) x) with
            | false => rfl
            | true =>
              have := pqLt_of_not_of_lt (by simpa using hy) hres
              rw [this] at hbres
              cases hbres
        · by_cases hy : pqLt y x = true
          · rw [if_pos hy] at hmin ⊢
            exact hmin q (List.mem_cons_of_mem _ hq3)
          · rw [if_neg hy] at hmin ⊢
            exact hmin q (List.mem_cons_of_mem _ hq3)

theorem minEntryPq_mem {l : List (ℚ × Node)} {m : ℚ × Node}
    (h : minEntryPq l = some m) : m ∈ l := by
  cases l with
  | nil => simp [minEntryPq] at h
  | cons x xs =>
    simp only [minEntryPq, Option.some_inj] at h
    exact h ▸ (foldlPqMin_spec xs x).1

theorem minEntryPq_min {l : List (ℚ × Node)} {m : ℚ × Node}
    (h : minEntryPq l = some m) : ∀ q ∈ l, pqLt q m = false := by
  cases l with
  | nil => simp [minEntryPq] at h
  | cons x xs =>
    simp only [minEntryPq, Option.some_inj] at h
    exact fun q hq => h ▸ (foldlPqMin_spec xs x).2 q hq

theorem minEntryPq_none_iff (l : List (ℚ × Node)) : minEntryPq l = none ↔ l = [] := by
  cases l <;> simp [minEntryPq]

theorem fst_le_of_pqLt_false {q m : ℚ × Node} (h : pqLt q m = false) : m.1 ≤ q.1 := by
  by_contra hlt
  push_neg at hlt
  have h2 : pqLt q m = true := (pqLt_iff q m).mpr (Or.inl hlt)
  rw [h2] at h
  cases h

theorem mem_of_mem_eraseFirstPq {l : List (ℚ × Node)} {e q : ℚ × Node}
    (h : q ∈ eraseFirstPq l e) : q ∈ l := by
  induction l with
  | nil => simp [eraseFirstPq] at h
  | cons x xs ih =>
    simp only [eraseFirstPq] at h
    by_cases hx : x == e
    · rw [if_pos hx] at h
      exact List.mem_cons_of_mem _ h
    · rw [if_neg (by simpa using hx)] at h
      rcases List.mem_cons.mp h with rfl | h2
      · exact List.mem_cons_self _ _
      · exact List.mem_cons_of_mem _ (ih h2)

theorem mem_eraseFirstPq_of_ne {l : List (ℚ × Node)} {e q : ℚ × Node}
    (hq : q ∈ l) (hne : q ≠ e) : q ∈ eraseFirstPq l e := by
  induction l with
  | nil => simp at hq
  | cons x xs ih =>
    simp only [eraseFirstPq]
    by_cases hx : x == e
    · rw [if_pos hx]
      rcases List.mem_cons.mp hq with rfl | h2
      · exact absurd (by simpa using hx) hne
      · exact h2
    · rw [if_neg (by simpa using hx)]
      rcases List.mem_cons.mp hq with rfl | h2
      · exact List.mem_cons_self _ _
      · exact List.mem_cons_of_mem _ (ih h2)

/-! ## Generic first-minimum fold -/

theorem foldlMin_mem {α β : Type} [LinearOrder β] (f : α → β) (l : List α) (b : α) :
    l.foldl (fun best x => if f x < f best then x else best) b ∈ b :: l := by
  induction l generalizing b with
  | nil => simp
  | cons y ys ih =>
    simp only [List.foldl_cons]
    rcases List.mem_cons.mp (ih (if f y < f b then y else b)) with h | h
    · rw [h]
      by_cases hy : f y < f b
      · rw [if_pos hy]
        exact List.mem_cons_of_mem _ (List.mem_cons_self _ _)
      · rw [if_neg hy]
        exact List.mem_cons_self _ _
    · exact List.mem_cons_of_mem _ (List.mem_cons_of_mem _ h)

theorem foldlMin_le {α β : Type} [LinearOrder β] (f : α → β) (l : List α) (b : α) :
    ∀ x ∈ b :: l, f (l.foldl (fun best x => if f x < f best then x else best) b) ≤ f x := by
  induction l generalizing b with
  | nil =>
    intro x hx
    obtain rfl := List.mem_singleton.mp hx
    simp
  | cons y ys ih =>
    intro x hx
    simp only [List.foldl_cons]
    have hself := ih (if f y < f b then y else b) (if f y < f b then y else b)
      (List.mem_cons_self _ _)
    rcases List.mem_cons.mp hx with rfl | hx2
    · by_cases hy : f y < f x
      · rw [if_pos hy] at hself ⊢
        exact le_trans hself (le_of_lt hy)
      · rw [if_neg hy] at hself ⊢
        exact hself
    · rcases List.mem_cons.mp hx2 with rfl | hx3
      · by_cases hy : f x < f b
        · rw [if_pos hy] at hself ⊢
          exact hself
        · rw [if_neg hy] at hself ⊢
          exact le_trans hself (le_of_not_lt hy)
      · exact ih (if f y < f b then y else b) x (List.mem_cons_of_mem _ hx3)

end GridFlow

namespace GridFlow

/-! ## C7: edge-normalizer contract -/

/-- C7: the edge normalizer fails with `InvalidReferenceSystem` exactly when
the layer's CRS differs from the expected one; with `MissingColumns` exactly
when (the CRS matches and) a required column is absent; with
`InvalidEdgeKind` exactly when (the earlier checks pass and) the declared
kind is neither `ssdmt` (segment) nor `unsemt` (switch); and otherwise
returns uniform edge records with `connection = (PAC_1, PAC_2)` and
`path_type` set to the declared layer kind.  The three failure conditions
overlap, and the source checks them in this fixed order, so each
"exactly when" is relative to the earlier checks passing. -/
theorem c7_normalizer_contract (gdf : RawGdf) (layer_name : String) :
    (createSemiPathGdf gdf layer_name = .error .invalidReferenceSystem ↔
      gdf.crs ≠ expectedCRS)
    ∧ (createSemiPathGdf gdf layer_name = .error .missingColumns ↔
        (gdf.crs = expectedCRS ∧ missingCols gdf ≠ []))
    ∧ (createSemiPathGdf gdf layer_name = .error .invalidEdgeKind ↔
        (gdf.crs = expectedCRS ∧ missingCols gdf = [] ∧
          layer_name ≠ "ssdmt" ∧ layer_name ≠ "unsemt"))
    ∧ (gdf.crs = expectedCRS → missingCols gdf = [] →
        (layer_name = "ssdmt" ∨ layer_name = "unsemt") →
        createSemiPathGdf gdf layer_name = .ok (gdf.rows.map fun r =>
          { connection := (r.PAC_1, r.PAC_2)
            cod_id := r.COD_ID
            ctmt := r.CTMT
            path_type := layer_name
            geometry := r.geometry })) := by
  unfold createSemiPathGdf
  split_ifs with h1 h2 h3
  · exact ⟨iff_of_true rfl h1,
      iff_of_false (by simp) (fun hc => h1 hc.1),
      iff_of_false (by simp) (fun hc => h1 hc.1),
      fun hcrs _ _ => absurd hcrs h1⟩
  · push_neg at h1
    exact ⟨iff_of_false (by simp) (fun hc => hc h1),
      iff_of_true rfl ⟨h1, h2⟩,
      iff_of_false (by simp) (fun hc => h2 hc.2.1),
      fun _ hmc _ => absurd hmc h2⟩
  · push_neg at h1 h2
    exact ⟨iff_of_false (by simp) (fun hc => hc h1),
      iff_of_false (by simp) (fun hc => hc.2 h2),
      iff_of_true rfl ⟨h1, h2, h3.1, h3.2⟩,
      fun _ _ hl => hl.elim (fun h => absurd h h3.1) (fun h => absurd h h3.2)⟩
  · push_neg at h1 h2
    exact ⟨iff_of_false (by simp) (fun hc => hc h1),
      iff_of_false (by simp) (fun hc => hc.2 h2),
      iff_of_false (by simp) (fun hc => h3 ⟨hc.2.2.1, hc.2.2.2⟩),
      fun _ _ _ => rfl⟩

/-- Witness frame for C7: a valid single-row input layer. -/
def c7Gdf : RawGdf :=
  { crs := "EPSG:4674"
    columns := ["COD_ID", "CTMT", "PAC_1", "PAC_2", "geometry"]
    rows := [{ COD_ID := "c1", CTMT := "t1", PAC_1 := "A", PAC_2 := "B",
               geometry := .point (0, 0) }] }

/-- C7 witness: the contract applied to a concrete valid frame. -/
theorem c7_normalizer_contract_witness :
    createSemiPathGdf c7Gdf "ssdmt" =
      .ok [{ connection := ("A", "B"), cod_id := "c1", ctmt := "t1",
             path_type := "ssdmt", geometry := .point (0, 0) }] :=
  (c7_normalizer_contract c7Gdf "ssdmt").2.2.2 rfl (by decide) (Or.inl rfl)

/-! ## C9: connection pairs (corrected: the normalizer does not enforce
distinctness of the two endpoint identifiers) -/

/-- Input frame whose single row has `PAC_1 = PAC_2`. -/
def c9Gdf : RawGdf :=
  { crs := "EPSG:4674"
    columns := ["COD_ID", "CTMT", "PAC_1", "PAC_2", "geometry"]
    rows := [{ COD_ID := "c1", CTMT := "t1", PAC_1 := "A", PAC_2 := "A",
               geometry := .point (0, 0) }] }

/-- The edge produced from `c9Gdf`. -/
def c9Edge : SemiPath :=
  { connection := ("A", "A"), cod_id := "c1", ctmt := "t1",
    path_type := "ssdmt", geometry := .point (0, 0) }

/-- C9 counterexample: the normalizer accepts a row with equal endpoint
identifiers and emits an edge whose connection pair is not distinct, so
"every edge produced by the normalizer has two distinct node identifiers"
is false on the code. -/
theorem c9_distinct_counterexample :
    createSemiPathGdf c9Gdf "ssdmt" = .ok [c9Edge] ∧
      c9Edge.connection.1 = c9Edge.connection.2 :=
  ⟨rfl, rfl⟩

/-- C9 (amended): the normalizer passes the endpoint pair through
unvalidated, so connection pairs are distinct exactly when the input rows'
`PAC_1`/`PAC_2` are; for inputs with distinct endpoint fields every
produced edge has two distinct node identifiers. -/
theorem c9_distinct_amended (gdf : RawGdf) (layer_name : String)
    (out : List SemiPath) (hok : createSemiPathGdf gdf layer_name = .ok out)
    (hin : ∀ r ∈ gdf.rows, r.PAC_1 ≠ r.PAC_2) :
    ∀ e ∈ out, e.connection.1 ≠ e.connection.2 := by
  unfold createSemiPathGdf at hok
  split_ifs at hok
  obtain rfl : gdf.rows.map _ = out := by injection hok
  intro e he
  obtain ⟨r, hr, rfl⟩ := List.mem_map.mp he
  exact hin r hr

/-- Witness frame for the amended C9. -/
def c9WGdf : RawGdf :=
  { crs := "EPSG:4674"
    columns := ["COD_ID", "CTMT", "PAC_1", "PAC_2", "geometry"]
    rows := [{ COD_ID := "c1", CTMT := "t1", PAC_1 := "A", PAC_2 := "B",
               geometry := .point (0, 0) }] }

/-- The edge produced from `c9WGdf`. -/
def c9WEdge : SemiPath :=
  { connection := ("A", "B"), cod_id := "c1", ctmt := "t1",
    path_type := "ssdmt", geometry := .point (0, 0) }

/-- C9 witness: the amended claim applied to a concrete distinct-endpoint
frame. -/
theorem c9_distinct_amended_witness : c9WEdge.connection.1 ≠ c9WEdge.connection.2 :=
  c9_distinct_amended c9WGdf "ssdmt" [c9WEdge] rfl (by decide) c9WEdge
    (List.mem_singleton.mpr rfl)

/-! ## C4: resistance calculator -/

/-- C4: a segment (`ssdmt`) edge whose `cod_id` resolves through the
segment table and whose conductor type resolves through the resistivity
table gets resistance `(COMP / 1000) * R1`; an edge with any unresolved
lookup gets `0.0` instead of failing; and every non-segment edge (in
particular every `unsemt` switch) gets resistance exactly `0.0`. -/
theorem c4_resistance (sps : List SemiPath) (ssdmtL : List SsdmtRow)
    (segconL : List SegconRow) :
    (∀ p ∈ addResistenceToSemiPaths sps ssdmtL segconL,
      (lowerStr p.path_type ≠ "ssdmt" → p.resistence = 0) ∧
      (lowerStr p.path_type = "ssdmt" →
        p.resistence = segResist ssdmtL segconL p.cod_id))
    ∧ (∀ cod srow crow, ssdmtL.find? (fun r => r.COD_ID == cod) = some srow →
        segconL.find? (fun r => r.COD_ID == srow.TIP_CND) = some crow →
        segResist ssdmtL segconL cod = (srow.COMP / 1000) * crow.R1)
    ∧ (∀ cod, (compByCod ssdmtL cod = none ∨
          (tipByCod ssdmtL cod).bind (r1ByTip segconL) = none) →
        segResist ssdmtL segconL cod = 0) := by
  refine ⟨?_, ?_, ?_⟩
  · intro p hp
    obtain ⟨sp, hsp, rfl⟩ := List.mem_map.mp hp
    constructor
    · intro h
      show (if lowerStr sp.path_type = "ssdmt" then _ else 0) = 0
      rw [if_neg h]
    · intro h
      show (if lowerStr sp.path_type = "ssdmt" then _ else 0) = _
      rw [if_pos h]
  · intro cod srow crow h1 h2
    simp [segResist, compByCod, tipByCod, r1ByTip, h1, h2]
  · intro cod h
    rcases h with h | h
    · simp [segResist, h]
    · rcases hc : compByCod ssdmtL cod with _ | c <;> simp [segResist, h, hc]

/-- Witness segment table for C4. -/
def c4Ssdmt : List SsdmtRow := [{ COD_ID := "c", COMP := 2500, TIP_CND := "CU35" }]

/-- Witness resistivity table for C4. -/
def c4Segcon : List SegconRow := [{ COD_ID := "CU35", R1 := 2 }]

/-- C4 witness: the resolved-lookup formula applied to a concrete table
(2500 m at 2 ohm/km gives 5 ohm). -/
theorem c4_resistance_witness :
    segResist c4Ssdmt c4Segcon "c" =
      ((2500 : ℚ) / 1000) * 2 :=
  (c4_resistance [] c4Ssdmt c4Segcon).2.1 "c"
    { COD_ID := "c", COMP := 2500, TIP_CND := "CU35" }
    { COD_ID := "CU35", R1 := 2 } (by decide) (by decide)

end GridFlow

namespace GridFlow

/-! ## C5: start equals destination -/

/-- With `start = goal`, the first pop finalizes the start node and the
loop breaks immediately. -/
theorem dijkstraRun_self (adj : AdjList) (n : Node) :
    dijkstraRun adj n n = { dist := [(n, 0)], prev := [], pq := [], trace := [(0, n)] } := by
  show dijkstraLoop adj n (totalDeg adj + 1 + 1) (initState n) = _
  simp [dijkstraLoop, minEntryPq, initState, visitedOf, eraseFirstPq]

/-- Reconstruction of the degenerate chain from a node to itself. -/
theorem reconstructPath_self (prev : List (Node × Node)) (n : Node) :
    reconstructPath prev n n = [n] := by
  show (reconstructChain prev n (prev.length + 1) n).getD [] = [n]
  simp [reconstructChain]

/-- C5: for every edge set and node identifier occurring in it, the path
from a node to itself is the single-node, zero-edge path with
completeness = true and zero cumulative resistance. -/
theorem c5_start_eq_dest (gm : GeoModel) (rows : List SemiPath) (ssdmtL : List SsdmtRow)
    (segconL : List SegconRow) (n : Node)
    (_h : ∃ r ∈ rows, n = r.connection.1 ∨ n = r.connection.2) :
    shortestPathByDijkstra gm n n rows ssdmtL segconL = ([], true) ∧
      ((shortestPathByDijkstra gm n n rows ssdmtL segconL).1.map (·.resistence)).sum = 0 := by
  have hmain : shortestPathByDijkstra gm n n rows ssdmtL segconL = ([], true) := by
    simp only [shortestPathByDijkstra, dijkstra, dijkstraRun_self, reconstructPath_self]
    simp [nodesToRowsPath]
  refine ⟨hmain, ?_⟩
  rw [hmain]
  rfl

/-- C5 witness: a concrete one-edge set and its node `A`. -/
theorem c5_start_eq_dest_witness :
    shortestPathByDijkstra
      { planar := fun p q => (p.1 - q.1)^2 + (p.2 - q.2)^2
        geod := fun p q => (p.1 - q.1)^2 + (p.2 - q.2)^2 }
      "A" "A"
      [{ connection := ("A", "B"), cod_id := "e1", ctmt := "t",
         path_type := "ssdmt", geometry := .line ⟨(0, 0), [(1, 0)]⟩ }] [] [] =
      ([], true) :=
  (c5_start_eq_dest _ _ [] [] "A"
    ⟨_, List.mem_singleton.mpr rfl, Or.inl rfl⟩).1

end GridFlow

namespace GridFlow

/-! ## Concrete instances: C10 and the C1 counterexample -/

/-- A concrete distance model for witness instances (squared Euclidean
distance; any function is admissible since the engine only compares
distances). -/
def gmW : GeoModel :=
  { planar := fun p q => (p.1 - q.1)^2 + (p.2 - q.2)^2
    geod := fun p q => (p.1 - q.1)^2 + (p.2 - q.2)^2 }

/-- Two disconnected components `A–B` and `C–D`; node `A` sits at the
origin, geodesically nearest `C` at `(-1, 0)`. -/
def c10Rows : List SemiPath :=
  [ { connection := ("A", "B"), cod_id := "e1", ctmt := "ct", path_type := "ssdmt",
      geometry := .line ⟨(0, 0), [(10, 0)]⟩ },
    { connection := ("C", "D"), cod_id := "e2", ctmt := "ct", path_type := "ssdmt",
      geometry := .line ⟨(-1, 0), [(-5, 0)]⟩ } ]

/-- The enriched frame of `c10Rows` (empty lookup tables: resistances 0). -/
def c10Gdf : List SemiPathR := addResistenceToSemiPaths c10Rows [] []

/-- The adjacency structure of `c10Rows`. -/
def c10Adj : AdjList := buildAdj c10Gdf

/-- C10: with destination `C` referenced by an edge but disconnected from
start `A`, the engine returns the empty edge sequence with
completeness = false (not an error): the start holds tentative distance 0,
it is the finitely-distanced node geodesically nearest `C`'s coordinate,
and the reconstructed node sequence is the one-node list `[A]`, which the
reconstructor turns into zero edges. -/
theorem c10_empty_partial_path :
    shortestPathByDijkstra gmW "A" "C" c10Rows [] [] = ([], false) ∧
    lookupL (dijkstra c10Adj "A" "C").2 "A" = some 0 ∧
    closestReachableNode gmW (dijkstra c10Adj "A" "C").2 (buildNodeXY c10Gdf) (-1, 0) =
      some "A" ∧
    reconstructPath (dijkstra c10Adj "A" "C").1 "A" "A" = ["A"] := by
  refine ⟨?_, ?_, ?_, ?_⟩ <;> with_unfolding_all rfl

/-- C1 counterexample: on an edge set with no edge referencing the
destination (here: the empty set, where nothing but the start ever holds a
finite distance), `shortest_path_by_dijkstra` returns the empty path with
completeness = false — it returns a result instead of raising a
`NoPathPossible` error, so the claim as stated is false on the code. -/
theorem c1_counterexample :
    shortestPathByDijkstra gmW "A" "Z" [] [] [] = ([], false) := by
  with_unfolding_all rfl

end GridFlow

namespace GridFlow

/-! ## C1 (amended): unreferenced destination yields an empty partial result -/

/-- The enriched frame projects back to the input edge set. -/
theorem mem_addResistence {sps : List SemiPath} {ssdmtL : List SsdmtRow}
    {segconL : List SegconRow} {p : SemiPathR}
    (hp : p ∈ addResistenceToSemiPaths sps ssdmtL segconL) : p.toSemiPath ∈ sps := by
  obtain ⟨sp, hsp, rfl⟩ := List.mem_map.mp hp
  exact hsp

/-- Every adjacency entry's target is an endpoint of some row. -/
theorem buildAdj_target (rows : List SemiPathR) :
    ∀ u, ∀ e ∈ adjGet (buildAdj rows) u,
      ∃ r ∈ rows, e.1 = r.connection.1 ∨ e.1 = r.connection.2 := by
  have key : ∀ (l : List (Nat × SemiPathR)) (acc : AdjList),
      (∀ u, ∀ e ∈ adjGet acc u, ∃ r ∈ rows, e.1 = r.connection.1 ∨ e.1 = r.connection.2) →
      (∀ x ∈ l, x.2 ∈ rows) →
      ∀ u, ∀ e ∈ adjGet (l.foldl (fun adj ir =>
        adjInsert (adjInsert adj ir.2.connection.1 (ir.2.connection.2, ir.2.resistence, ir.1))
          ir.2.connection.2 (ir.2.connection.1, ir.2.resistence, ir.1)) acc) u,
      ∃ r ∈ rows, e.1 = r.connection.1 ∨ e.1 = r.connection.2 := by
    intro l
    induction l with
    | nil =>
      intro acc hacc _ u e he
      exact hacc u e he
    | cons x xs ih =>
      intro acc hacc hl u e he
      refine ih _ ?_ (fun y hy => hl y (List.mem_cons_of_mem _ hy)) u e he
      intro v f hf
      rw [adjGet_adjInsert] at hf
      by_cases h1 : v = x.2.connection.2
      · rw [if_pos h1] at hf
        rcases List.mem_append.mp hf with h2 | h2
        · rw [adjGet_adjInsert] at h2
          by_cases h3 : v = x.2.connection.1
          · rw [if_pos h3] at h2
            rcases List.mem_append.mp h2 with h4 | h4
            · exact hacc v f h4
            · obtain rfl := List.mem_singleton.mp h4
              exact ⟨x.2, hl x (List.mem_cons_self _ _), Or.inr rfl⟩
          · rw [if_neg h3] at h2
            exact hacc v f h2
        · obtain rfl := List.mem_singleton.mp h2
          exact ⟨x.2, hl x (List.mem_cons_self _ _), Or.inl rfl⟩
      · rw [if_neg h1, adjGet_adjInsert] at hf
        by_cases h3 : v = x.2.connection.1
        · rw [if_pos h3] at hf
          rcases List.mem_append.mp hf with h4 | h4
          · exact hacc v f h4
          · obtain rfl := List.mem_singleton.mp h4
            exact ⟨x.2, hl x (List.mem_cons_self _ _), Or.inr rfl⟩
        · rw [if_neg h3] at hf
          exact hacc v f hf
  intro u e he
  refine key rows.enum [] ?_ ?_ u e he
  · intro u2 e2 he2
    rw [adjGet_nil] at he2
    cases he2
  · intro x hx
    exact List.getElem?_mem (List.mem_enum_iff_getElem?.mp hx)

/-- Preservation of a key predicate on the predecessor map over the
relaxation loop. -/
theorem relaxAll_prev_pred (adj : AdjList) (u : Node) (d : ℚ) (P : Node → Prop)
    (hP : ∀ e ∈ adjGet adj u, P e.1) :
    ∀ (l : List AdjEntry), (∀ e ∈ l, e ∈ adjGet adj u) →
    ∀ (s : DState), (∀ v ∈ keysOf s.prev, P v) →
    ∀ v ∈ keysOf (l.foldl (relaxOne u d) s).prev, P v := by
  intro l
  induction l with
  | nil =>
    intro _ s hs
    exact hs
  | cons e es ih =>
    intro hl s hs
    simp only [List.foldl_cons]
    apply ih (fun f hf => hl f (List.mem_cons_of_mem _ hf))
    intro v hv
    simp only [relaxOne] at hv
    by_cases himp : improves s.dist e.1 (d + e.2.1) = true
    · rw [if_pos himp] at hv
      have hv2 : v ∈ keysOf (updL s.prev e.1 u) := hv
      rw [keysOf_updL] at hv2
      by_cases hmem : e.1 ∈ keysOf s.prev
      · rw [if_pos hmem] at hv2
        exact hs v hv2
      · rw [if_neg hmem] at hv2
        rcases List.mem_append.mp hv2 with h | h
        · exact hs v h
        · obtain rfl := List.mem_singleton.mp h
          exact hP e (hl e (List.mem_cons_self _ _))
    · rw [if_neg himp] at hv
      exact hs v hv

/-- Preservation of a key predicate on the predecessor map over the whole
search loop: every predecessor key was introduced by a relaxation, hence
is an adjacency target. -/
theorem dijkstraLoop_prev_pred (adj : AdjList) (goal : Node) (P : Node → Prop)
    (hP : ∀ u, ∀ e ∈ adjGet adj u, P e.1) :
    ∀ fuel (s : DState), (∀ v ∈ keysOf s.prev, P v) →
      ∀ v ∈ keysOf (dijkstraLoop adj goal fuel s).prev, P v := by
  intro fuel
  induction fuel with
  | zero =>
    intro s hs
    exact hs
  | succ fuel ih =>
    intro s hs
    cases hm : minEntryPq s.pq with
    | none =>
      simp only [dijkstraLoop, hm]
      exact hs
    | some du =>
      simp only [dijkstraLoop, hm]
      by_cases hv : du.2 ∈ visitedOf s
      · rw [if_pos hv]
        exact ih _ hs
      · rw [if_neg hv]
        by_cases hg : du.2 == goal
        · rw [if_pos hg]
          exact hs
        · rw [if_neg hg]
          apply ih
          exact relaxAll_prev_pred adj du.2 du.1 P (hP du.2) _ (fun f hf => hf) _ hs

/-- `_reconstruct` returns the empty list when the target is distinct from
the start and absent from the predecessor map. -/
theorem reconstructPath_eq_nil (prev : List (Node × Node)) (start target : Node)
    (h1 : target ≠ start) (h2 : lookupL prev target = none) :
    reconstructPath prev start target = [] := by
  show (reconstructChain prev start (prev.length + 1) target).getD [] = []
  simp [reconstructChain, h1, h2]

/-- C1 (amended): when no edge references the destination and the
destination differs from the start (so that no node besides the start can
hold a finite distance toward it), the engine returns the empty path with
completeness = false instead of raising an error. -/
theorem c1_amended_no_reference (gm : GeoModel) (start dest : Node)
    (semiPaths : List SemiPath) (ssdmtL : List SsdmtRow) (segconL : List SegconRow)
    (hdest : ∀ r ∈ semiPaths, r.connection.1 ≠ dest ∧ r.connection.2 ≠ dest)
    (hne : dest ≠ start) :
    shortestPathByDijkstra gm start dest semiPaths ssdmtL segconL = ([], false) := by
  have htar : ∀ v ∈ keysOf (dijkstraRun
      (buildAdj (addResistenceToSemiPaths semiPaths ssdmtL segconL)) start dest).prev,
      ∃ r ∈ addResistenceToSemiPaths semiPaths ssdmtL segconL,
        v = r.connection.1 ∨ v = r.connection.2 := by
    refine dijkstraLoop_prev_pred
      (buildAdj (addResistenceToSemiPaths semiPaths ssdmtL segconL)) dest
      (fun v => ∃ r ∈ addResistenceToSemiPaths semiPaths ssdmtL segconL,
        v = r.connection.1 ∨ v = r.connection.2)
      (buildAdj_target _) _ _ ?_
    intro v hv
    simp [initState, keysOf] at hv
  have hdkey : dest ∉ keysOf (dijkstraRun
      (buildAdj (addResistenceToSemiPaths semiPaths ssdmtL segconL)) start dest).prev := by
    intro hd
    obtain ⟨r, hr, hcase⟩ := htar dest hd
    have hsp := mem_addResistence hr
    rcases hcase with h | h
    · exact (hdest _ hsp).1 h.symm
    · exact (hdest _ hsp).2 h.symm
  have hrecon : reconstructPath (dijkstraRun
      (buildAdj (addResistenceToSemiPaths semiPaths ssdmtL segconL)) start dest).prev
      start dest = [] :=
    reconstructPath_eq_nil _ _ _ hne (lookupL_eq_none_of_not_mem hdkey)
  have hfind : (addResistenceToSemiPaths semiPaths ssdmtL segconL).find?
      (fun r => r.connection.1 == dest || r.connection.2 == dest) = none := by
    rw [List.find?_eq_none]
    intro r hr
    have hsp := mem_addResistence hr
    simp [(hdest _ hsp).1, (hdest _ hsp).2]
  simp only [shortestPathByDijkstra, dijkstra]
  rw [hrecon, hfind]
  simp

/-- C1 witness for the amended claim: a concrete one-edge set not touching
the destination. -/
theorem c1_amended_no_reference_witness :
    shortestPathByDijkstra gmW "A" "Z"
      [{ connection := ("A", "B"), cod_id := "e1", ctmt := "t",
         path_type := "ssdmt", geometry := .line ⟨(0, 0), [(1, 0)]⟩ }] [] [] =
      ([], false) :=
  c1_amended_no_reference gmW "A" "Z" _ [] [] (by decide) (by decide)

end GridFlow

namespace GridFlow

/-! ## C8: node resolution by coordinate -/

/-- The endpoint-items list of a row is never empty. -/
theorem pacItems_ne_nil (sp : SemiPath) : pacItems sp ≠ [] := by
  unfold pacItems
  by_cases hab : sp.connection.1 == sp.connection.2 <;> simp [hab]

/-- The chosen endpoint identifier comes from the items list and has the
smallest geodesic distance to the point. -/
theorem chooseNearestEndpointPac_spec (gm : GeoModel) (sp : SemiPath) (pt : Coord) :
    ∃ it ∈ pacItems sp, chooseNearestEndpointPac gm sp pt = it.1 ∧
      ∀ q ∈ pacItems sp, gm.geod it.2 pt ≤ gm.geod q.2 pt := by
  cases hpi : pacItems sp with
  | nil => exact absurd hpi (pacItems_ne_nil sp)
  | cons it0 rest =>
    have hc : chooseNearestEndpointPac gm sp pt =
        (rest.foldl (fun best q => if gm.geod q.2 pt < gm.geod best.2 pt then q else best) it0).1 := by
      unfold chooseNearestEndpointPac
      rw [hpi]
    refine ⟨rest.foldl (fun best q => if gm.geod q.2 pt < gm.geod best.2 pt then q else best) it0,
      ?_, hc, ?_⟩
    · exact foldlMin_mem (fun q => gm.geod q.2 pt) rest it0
    · intro q hq
      exact foldlMin_le (fun q => gm.geod q.2 pt) rest it0 q hq

/-- When the point is strictly closer to the second endpoint coordinate,
the second connection identifier is chosen. -/
theorem chooseNearestEndpointPac_strict (gm : GeoModel) (sp : SemiPath) (pt : Coord)
    (hlt : gm.geod (geomEndpointsXY sp.geometry).2 pt <
      gm.geod (geomEndpointsXY sp.geometry).1 pt) :
    chooseNearestEndpointPac gm sp pt = sp.connection.2 := by
  unfold chooseNearestEndpointPac pacItems
  by_cases hab : sp.connection.1 == sp.connection.2
  · simp only [hab, if_pos]
    exact eq_of_beq hab
  · rw [if_neg (by simpa using hab)]
    simp only [List.foldl_cons, List.foldl_nil]
    rw [if_pos hlt]

/-- C8: for a non-empty edge set and a query point, the resolver selects a
row whose `min_end_distance` (planar distance to the geometry's end
vertices) is minimal over all rows (first minimum), and then returns, among
that row's endpoint identifiers, one whose coordinate is geodesically
nearest the point; in particular when the point is strictly closer to the
`B`-endpoint of edge `A–B` it resolves to `B`. -/
theorem c8_resolve_by_coordinate (gm : GeoModel) (rows : List SemiPath) (pt : Coord)
    (h : rows ≠ []) :
    ∃ r, findNearestSemiPath gm rows pt = some r ∧ r ∈ rows ∧
      (∀ e ∈ rows, minEndDistance gm pt r.geometry ≤ minEndDistance gm pt e.geometry) ∧
      (∃ it ∈ pacItems r, chooseNearestEndpointPac gm r pt = it.1 ∧
        ∀ q ∈ pacItems r, gm.geod it.2 pt ≤ gm.geod q.2 pt) ∧
      (gm.geod (geomEndpointsXY r.geometry).2 pt < gm.geod (geomEndpointsXY r.geometry).1 pt →
        chooseNearestEndpointPac gm r pt = r.connection.2) := by
  cases rows with
  | nil => exact absurd rfl h
  | cons r0 rest =>
    refine ⟨rest.foldl (fun best e =>
        if minEndDistance gm pt e.geometry < minEndDistance gm pt best.geometry then e
        else best) r0, by unfold findNearestSemiPath; rfl, ?_, ?_, ?_, ?_⟩
    · exact foldlMin_mem (fun e => minEndDistance gm pt e.geometry) rest r0
    · exact foldlMin_le (fun e => minEndDistance gm pt e.geometry) rest r0
    · exact chooseNearestEndpointPac_spec gm _ pt
    · exact chooseNearestEndpointPac_strict gm _ pt

/-- Witness edge for C8: a line from the origin to `(10, 0)` joining `A`
to `B`, queried at `(9, 0)` (closer to the `B` endpoint). -/
def c8Edge : SemiPath :=
  { connection := ("A", "B"), cod_id := "e1", ctmt := "t",
    path_type := "ssdmt", geometry := .line ⟨(0, 0), [(10, 0)]⟩ }

/-- C8 witness: the resolver contract at a concrete edge set and point. -/
theorem c8_resolve_by_coordinate_witness :
    ∃ r, findNearestSemiPath gmW [c8Edge] (9, 0) = some r ∧ r ∈ [c8Edge] ∧
      (∀ e ∈ [c8Edge], minEndDistance gmW (9, 0) r.geometry ≤
        minEndDistance gmW (9, 0) e.geometry) ∧
      (∃ it ∈ pacItems r, chooseNearestEndpointPac gmW r (9, 0) = it.1 ∧
        ∀ q ∈ pacItems r, gmW.geod it.2 (9, 0) ≤ gmW.geod q.2 (9, 0)) ∧
      (gmW.geod (geomEndpointsXY r.geometry).2 (9, 0) <
          gmW.geod (geomEndpointsXY r.geometry).1 (9, 0) →
        chooseNearestEndpointPac gmW r (9, 0) = r.connection.2) :=
  c8_resolve_by_coordinate gmW [c8Edge] (9, 0) (by simp)

end GridFlow

namespace GridFlow

/-! ## C6: geometry reconstruction round-trip -/

/-- The unordered-pair index lists exactly the row indices whose connection
pair equals the queried frozenset. -/
theorem p2rGet_buildP2R (rows : List SemiPathR) (u v : Node) (i : Nat) :
    i ∈ p2rGet (buildP2R rows) u v ↔
      ∃ r, rows[i]? = some r ∧ sameSet r.connection.1 r.connection.2 u v = true := by
  have key : ∀ (l : List (Nat × SemiPathR)) (m : P2R),
      i ∈ p2rGet (l.foldl (fun m ir =>
          p2rInsert m ir.2.connection.1 ir.2.connection.2 ir.1) m) u v ↔
        (i ∈ p2rGet m u v ∨
          ∃ x ∈ l, x.1 = i ∧ sameSet x.2.connection.1 x.2.connection.2 u v = true) := by
    intro l
    induction l with
    | nil =>
      intro m
      simp
    | cons x xs ih =>
      intro m
      simp only [List.foldl_cons]
      rw [ih, p2rGet_p2rInsert]
      by_cases hss : sameSet x.2.connection.1 x.2.connection.2 u v = true
      · rw [if_pos hss]
        constructor
        · rintro (hmem | ⟨y, hy, hyi, hys⟩)
          · rcases List.mem_append.mp hmem with hold | hnew
            · exact Or.inl hold
            · obtain rfl := List.mem_singleton.mp hnew
              exact Or.inr ⟨x, List.mem_cons_self _ _, rfl, hss⟩
          · exact Or.inr ⟨y, List.mem_cons_of_mem _ hy, hyi, hys⟩
        · rintro (hold | ⟨y, hy, hyi, hys⟩)
          · exact Or.inl (List.mem_append.mpr (Or.inl hold))
          · rcases List.mem_cons.mp hy with rfl | hy2
            · exact Or.inl (List.mem_append.mpr (Or.inr (List.mem_singleton.mpr hyi.symm)))
            · exact Or.inr ⟨y, hy2, hyi, hys⟩
      · rw [if_neg hss]
        constructor
        · rintro (hold | ⟨y, hy, hyi, hys⟩)
          · exact Or.inl hold
          · exact Or.inr ⟨y, List.mem_cons_of_mem _ hy, hyi, hys⟩
        · rintro (hold | ⟨y, hy, hyi, hys⟩)
          · exact Or.inl hold
          · rcases List.mem_cons.mp hy with rfl | hy2
            · exact absurd hys hss
            · exact Or.inr ⟨y, hy2, hyi, hys⟩
  unfold buildP2R
  rw [key rows.enum []]
  simp only [p2rGet_nil, List.not_mem_nil, false_or]
  constructor
  · rintro ⟨x, hx, rfl, hs⟩
    exact ⟨x.2, List.mem_enum_iff_getElem?.mp hx, hs⟩
  · rintro ⟨r, hr, hs⟩
    exact ⟨(i, r), List.mk_mem_enum_iff_getElem?.mpr hr, rfl, hs⟩

/-- C6: for a two-node node sequence, the reconstructor's candidate set is
exactly the rows connecting the unordered pair; with a single connecting
edge it emits exactly that edge record; with several parallel edges it
emits the first one of smallest geodesic line length. -/
theorem c6_reconstruction_roundtrip (gm : GeoModel) (gdf : List SemiPathR) (u v : Node) :
    (∀ i, i ∈ p2rGet (buildP2R gdf) u v ↔
      ∃ r, gdf[i]? = some r ∧ sameSet r.connection.1 r.connection.2 u v = true)
    ∧ (∀ i r, p2rGet (buildP2R gdf) u v = [i] → gdf[i]? = some r →
        nodesToRowsPath gm gdf [u, v] (buildP2R gdf) = [r])
    ∧ (p2rGet (buildP2R gdf) u v ≠ [] →
        ∃ j rj, j ∈ p2rGet (buildP2R gdf) u v ∧ gdf[j]? = some rj ∧
          nodesToRowsPath gm gdf [u, v] (buildP2R gdf) = [rj] ∧
          ∀ k rk, k ∈ p2rGet (buildP2R gdf) u v → gdf[k]? = some rk →
            geodesicLengthM gm rj.geometry ≤ geodesicLengthM gm rk.geometry) := by
  refine ⟨p2rGet_buildP2R gdf u v, ?_, ?_⟩
  · intro i r hone hri
    simp only [nodesToRowsPath]
    rw [if_neg (by norm_num)]
    simp [hone, argminIdx, hri]
  · intro hne
    cases hb : p2rGet (buildP2R gdf) u v with
    | nil => exact absurd hb hne
    | cons j rest =>
      set J := rest.foldl (fun best k =>
        if rowLen gm gdf k < rowLen gm gdf best then k else best) j with hJ
      have hbm : J ∈ j :: rest := by
        rw [hJ]
        exact foldlMin_mem (rowLen gm gdf) rest j
      have hble : ∀ x ∈ j :: rest, rowLen gm gdf J ≤ rowLen gm gdf x := by
        rw [hJ]
        exact foldlMin_le (rowLen gm gdf) rest j
      have hbm2 : J ∈ p2rGet (buildP2R gdf) u v := by
        rw [hb]
        exact hbm
      obtain ⟨rb, hrb, _⟩ := (p2rGet_buildP2R gdf u v _).mp hbm2
      refine ⟨J, rb, hbm, hrb, ?_, ?_⟩
      · simp only [nodesToRowsPath]
        rw [if_neg (by norm_num)]
        simp [hb, argminIdx, ← hJ, hrb]
      · intro k rk hk hrk
        have hle := hble k hk
        have e1 : rowLen gm gdf J = geodesicLengthM gm rb.geometry := by
          unfold rowLen
          rw [hrb]
        have e2 : rowLen gm gdf k = geodesicLengthM gm rk.geometry := by
          unfold rowLen
          rw [hrk]
        rw [e1, e2] at hle
        exact hle

/-- Witness frame for C6: a single edge joining `A` and `B`. -/
def c6Gdf : List SemiPathR :=
  [ { connection := ("A", "B"), cod_id := "e1", ctmt := "t", path_type := "ssdmt",
      geometry := .line ⟨(0, 0), [(1, 0)]⟩, resistence := 0 } ]

/-- C6 witness: the single-edge round-trip at a concrete frame. -/
theorem c6_reconstruction_roundtrip_witness :
    nodesToRowsPath gmW c6Gdf ["A", "B"] (buildP2R c6Gdf) =
      [{ connection := ("A", "B"), cod_id := "e1", ctmt := "t", path_type := "ssdmt",
         geometry := .line ⟨(0, 0), [(1, 0)]⟩, resistence := 0 }] :=
  (c6_reconstruction_roundtrip gmW c6Gdf "A" "B").2.1 0 _ (by decide) rfl

end GridFlow

namespace GridFlow

/-! ## Dijkstra loop invariants (C2, C3) -/

/-- Non-negative weights in the adjacency structure. -/
def WNonneg (adj : AdjList) : Prop := ∀ p ∈ adj, ∀ e ∈ p.2, 0 ≤ e.2.1

theorem adjGet_wnonneg {adj : AdjList} (h : WNonneg adj) (u : Node) :
    ∀ e ∈ adjGet adj u, 0 ≤ e.2.1 := by
  intro e he
  unfold adjGet lookupL at he
  cases hf : adj.find? (fun p => p.1 == u) with
  | none =>
    rw [hf] at he
    simp at he
  | some p =>
    rw [hf] at he
    simp at he
    exact h p (List.mem_of_find?_eq_some hf) e he

/-- In a `≤`-sorted list the last element bounds every element. -/
theorem pairwise_le_getLast {l : List ℚ} {x : ℚ} (hp : List.Pairwise (· ≤ ·) l)
    (hl : l.getLast? = some x) : ∀ y ∈ l, y ≤ x := by
  induction l with
  | nil => cases hl
  | cons a as ih =>
    intro y hy
    cases as with
    | nil =>
      obtain rfl : a = x := by simpa using hl
      obtain rfl : y = a := by simpa using hy
      exact le_refl _
    | cons b bs =>
      rw [List.getLast?_cons_cons] at hl
      rcases List.mem_cons.mp hy with rfl | hy2
      · have hx : x ∈ b :: bs := List.mem_of_mem_getLast? hl
        exact (List.pairwise_cons.mp hp).1 x hx
      · exact ih (List.pairwise_cons.mp hp).2 hl y hy2

/-- The state invariant of the search loop: tentative distances are
non-negative and never below a queued estimate, the start keeps distance 0,
finalization events are sorted and unrepeated, every unvisited distance
holds a live queue entry at its exact value, predecessor values are
finalized strictly earlier than their keys, every distanced node has a
predecessor chain hook, and everything recorded is reachable from the
start. -/
structure Inv (adj : AdjList) (start : Node) (s : DState) : Prop where
  distStart : lookupL s.dist start = some 0
  distNonneg : ∀ p ∈ s.dist, 0 ≤ p.2
  pqDist : ∀ q ∈ s.pq, ∃ dv, lookupL s.dist q.2 = some dv ∧ dv ≤ q.1
  traceDist : ∀ t ∈ s.trace, lookupL s.dist t.2 = some t.1
  traceLePq : ∀ t ∈ s.trace, ∀ q ∈ s.pq, t.1 ≤ q.1
  traceSorted : List.Pairwise (· ≤ ·) (s.trace.map (·.1))
  traceNodup : (visitedOf s).Nodup
  unvisEntry : ∀ v dv, lookupL s.dist v = some dv → v ∉ visitedOf s → (dv, v) ∈ s.pq
  prevVis : ∀ p ∈ s.prev, p.2 ∈ visitedOf s
  prevRank : ∀ p ∈ s.prev, p.1 ∈ visitedOf s →
    (visitedOf s).indexOf p.2 < (visitedOf s).indexOf p.1
  distChain : ∀ v ∈ keysOf s.dist, v = start ∨ (lookupL s.prev v).isSome
  prevSubDist : ∀ p ∈ s.prev, p.1 ∈ keysOf s.dist
  prevKeysNodup : (keysOf s.prev).Nodup
  distReach : ∀ v ∈ keysOf s.dist, ReachR adj start v
  pqReach : ∀ q ∈ s.pq, ReachR adj start q.2

theorem inv_init (adj : AdjList) (start : Node) : Inv adj start (initState start) := by
  refine ⟨?_, ?_, ?_, ?_, ?_, ?_, ?_, ?_, ?_, ?_, ?_, ?_, ?_, ?_, ?_⟩
  · rw [show (initState start).dist = [(start, 0)] from rfl, lookupL_cons, if_pos rfl]
  · intro p hp
    obtain rfl := List.mem_singleton.mp hp
    exact le_refl _
  · intro q hq
    obtain rfl := List.mem_singleton.mp hq
    exact ⟨0, by rw [show (initState start).dist = [(start, 0)] from rfl, lookupL_cons, if_pos rfl],
      le_refl _⟩
  · intro t ht
    cases ht
  · intro t ht
    cases ht
  · exact List.Pairwise.nil
  · exact List.nodup_nil
  · intro v dv hl hnv
    rw [show (initState start).dist = [(start, 0)] from rfl, lookupL_cons] at hl
    by_cases hv : start = v
    · rw [if_pos hv] at hl
      obtain rfl := Option.some_inj.mp hl
      subst hv
      exact List.mem_singleton.mpr rfl
    · rw [if_neg hv, lookupL_nil] at hl
      cases hl
  · intro p hp
    cases hp
  · intro p hp
    cases hp
  · intro v hv
    obtain rfl := List.mem_singleton.mp hv
    exact Or.inl rfl
  · intro p hp
    cases hp
  · exact List.nodup_nil
  · intro v hv
    obtain rfl := List.mem_singleton.mp hv
    exact ReachR.base
  · intro q hq
    obtain rfl := List.mem_singleton.mp hq
    exact ReachR.base

/-- Skipping an already-finalized pop preserves the invariant. -/
theorem inv_skip {adj : AdjList} {start : Node} {s : DState} {du : ℚ × Node}
    (hInv : Inv adj start s) (hvis : du.2 ∈ visitedOf s) :
    Inv adj start { s with pq := eraseFirstPq s.pq du } := by
  refine ⟨hInv.distStart, hInv.distNonneg, ?_, hInv.traceDist, ?_, hInv.traceSorted,
    hInv.traceNodup, ?_, hInv.prevVis, hInv.prevRank, hInv.distChain, hInv.prevSubDist,
    hInv.prevKeysNodup, hInv.distReach, ?_⟩
  · intro q hq
    exact hInv.pqDist q (mem_of_mem_eraseFirstPq hq)
  · intro t ht q hq
    exact hInv.traceLePq t ht q (mem_of_mem_eraseFirstPq hq)
  · intro v dv hl hnv
    have hold := hInv.unvisEntry v dv hl hnv
    refine mem_eraseFirstPq_of_ne hold ?_
    intro hEq
    exact hnv (by rw [show v = du.2 from congrArg Prod.snd hEq]; exact hvis)
  · intro q hq
    exact hInv.pqReach q (mem_of_mem_eraseFirstPq hq)

end GridFlow

namespace GridFlow

/-- Index of an element beyond a prefix not containing it. -/
theorem indexOf_append_not_mem {a : Node} {l1 l2 : List Node} (h : a ∉ l1) :
    (l1 ++ l2).indexOf a = l1.length + l2.indexOf a := by
  induction l1 with
  | nil => simp
  | cons b bs ih =>
    have hab : b ≠ a := fun e => h (e ▸ List.mem_cons_self b bs)
    have hnot : a ∉ bs := fun e => h (List.mem_cons_of_mem _ e)
    rw [List.cons_append, List.indexOf_cons_ne _ hab, ih hnot, List.length_cons]
    omega

/-- At a pop of the queue minimum for an unvisited node, the stored
tentative distance equals the popped priority. -/
theorem dist_eq_at_pop {adj : AdjList} {start : Node} {s : DState} {du : ℚ × Node}
    (hInv : Inv adj start s) (hm : minEntryPq s.pq = some du)
    (hnv : du.2 ∉ visitedOf s) : lookupL s.dist du.2 = some du.1 := by
  obtain ⟨dv, hdv, hle⟩ := hInv.pqDist du (minEntryPq_mem hm)
  have hent := hInv.unvisEntry du.2 dv hdv hnv
  have hfalse := minEntryPq_min hm (dv, du.2) hent
  have hge : du.1 ≤ dv := fst_le_of_pqLt_false hfalse
  rw [hdv]
  exact congrArg some (le_antisymm hge hle).symm

/-- Finalizing the popped minimum preserves the invariant. -/
theorem inv_finalize {adj : AdjList} {start : Node} {s : DState} {du : ℚ × Node}
    (hInv : Inv adj start s) (hm : minEntryPq s.pq = some du)
    (hnv : du.2 ∉ visitedOf s) :
    Inv adj start { s with pq := eraseFirstPq s.pq du, trace := s.trace ++ [du] } := by
  have hdist := dist_eq_at_pop hInv hm hnv
  have hmem := minEntryPq_mem hm
  have hminf := minEntryPq_min hm
  have htb : ∀ t ∈ s.trace, t.1 ≤ du.1 := fun t ht => hInv.traceLePq t ht du hmem
  have hva : visitedOf { s with pq := eraseFirstPq s.pq du, trace := s.trace ++ [du] } =
      visitedOf s ++ [du.2] := by
    show (s.trace ++ [du]).map (·.2) = _
    rw [List.map_append]
    rfl
  refine ⟨hInv.distStart, hInv.distNonneg, ?_, ?_, ?_, ?_, ?_, ?_, ?_, ?_,
    hInv.distChain, hInv.prevSubDist, hInv.prevKeysNodup, hInv.distReach, ?_⟩
  · intro q hq
    exact hInv.pqDist q (mem_of_mem_eraseFirstPq hq)
  · intro t ht
    rcases List.mem_append.mp ht with h | h
    · exact hInv.traceDist t h
    · obtain rfl := List.mem_singleton.mp h
      exact hdist
  · intro t ht q hq
    have hq2 := mem_of_mem_eraseFirstPq hq
    rcases List.mem_append.mp ht with h | h
    · exact hInv.traceLePq t h q hq2
    · obtain rfl := List.mem_singleton.mp h
      exact fst_le_of_pqLt_false (hminf q hq2)
  · show List.Pairwise (· ≤ ·) ((s.trace ++ [du]).map (·.1))
    rw [List.map_append, List.pairwise_append]
    refine ⟨hInv.traceSorted, List.pairwise_singleton _ _, ?_⟩
    intro a ha b hb
    obtain ⟨t, ht, rfl⟩ := List.mem_map.mp ha
    obtain rfl : b = du.1 := by simpa using hb
    exact htb t ht
  · rw [hva]
    refine List.Nodup.append hInv.traceNodup (List.nodup_singleton _) ?_
    intro a ha hb
    obtain rfl : a = du.2 := by simpa using hb
    exact hnv ha
  · intro v dv hl hv2
    rw [hva] at hv2
    have hvnotold : v ∉ visitedOf s := fun hvv =>
      hv2 (List.mem_append.mpr (Or.inl hvv))
    have hne : v ≠ du.2 := fun hEq =>
      hv2 (List.mem_append.mpr (Or.inr (by simp [hEq])))
    have hold := hInv.unvisEntry v dv hl hvnotold
    exact mem_eraseFirstPq_of_ne hold (fun hEq => hne (congrArg Prod.snd hEq))
  · intro p hp
    rw [hva]
    exact List.mem_append.mpr (Or.inl (hInv.prevVis p hp))
  · intro p hp hp1
    rw [hva] at hp1 ⊢
    have hv2 : p.2 ∈ visitedOf s := hInv.prevVis p hp
    have hidx2 : (visitedOf s ++ [du.2]).indexOf p.2 = (visitedOf s).indexOf p.2 :=
      List.indexOf_append_of_mem hv2
    rcases List.mem_append.mp hp1 with h1 | h1
    · have hidx1 : (visitedOf s ++ [du.2]).indexOf p.1 = (visitedOf s).indexOf p.1 :=
        List.indexOf_append_of_mem h1
      rw [hidx2, hidx1]
      exact hInv.prevRank p hp h1
    · obtain hp1e : p.1 = du.2 := by simpa using h1
      have hidx1 : (visitedOf s ++ [du.2]).indexOf p.1 =
          (visitedOf s).length + [du.2].indexOf p.1 := by
        refine indexOf_append_not_mem ?_
        rw [hp1e]
        exact hnv
      rw [hidx2, hidx1]
      have := List.indexOf_lt_length.mpr hv2
      omega
  · intro q hq
    exact hInv.pqReach q (mem_of_mem_eraseFirstPq hq)

end GridFlow

namespace GridFlow

/-- One relaxation step preserves the invariant and leaves the trace
unchanged.  The relaxing node `u` is the most recently finalized one, at
distance `d`, and the edge weight is non-negative. -/
theorem inv_relaxOne {adj : AdjList} {start : Node} {s : DState} {u : Node} {d : ℚ}
    {e : AdjEntry}
    (hInv : Inv adj start s) (hlast : s.trace.getLast? = some (d, u))
    (he : e ∈ adjGet adj u) (hw : 0 ≤ e.2.1) (hreach : ReachR adj start u) :
    Inv adj start (relaxOne u d s e) ∧ (relaxOne u d s e).trace = s.trace := by
  have hu_mem_trace : (d, u) ∈ s.trace := List.mem_of_mem_getLast? hlast
  have hu_vis : u ∈ visitedOf s := List.mem_map.mpr ⟨(d, u), hu_mem_trace, rfl⟩
  have hdistu : lookupL s.dist u = some d := hInv.traceDist _ hu_mem_trace
  have hd0 : 0 ≤ d := hInv.distNonneg (u, d) (lookupL_some_mem hdistu)
  have hmapLast : (s.trace.map (·.1)).getLast? = some d := by
    rw [List.getLast?_map, hlast]
    rfl
  have htle : ∀ t ∈ s.trace, t.1 ≤ d := fun t ht =>
    pairwise_le_getLast hInv.traceSorted hmapLast t.1 (List.mem_map.mpr ⟨t, ht, rfl⟩)
  by_cases himp : improves s.dist e.1 (d + e.2.1) = true
  · have hch : relaxOne u d s e = { s with
        dist := updL s.dist e.1 (d + e.2.1)
        prev := updL s.prev e.1 u
        pq := s.pq ++ [(d + e.2.1, e.1)] } := by
      simp only [relaxOne]
      rw [if_pos himp]
    have hnd0 : 0 ≤ d + e.2.1 := add_nonneg hd0 hw
    have hndd : d ≤ d + e.2.1 := le_add_of_nonneg_right hw
    have sub1 : e.1 ∉ visitedOf s := by
      intro hvv
      obtain ⟨t, ht, hteq⟩ := List.mem_map.mp hvv
      have hlv : lookupL s.dist e.1 = some t.1 := by
        rw [← hteq]
        exact hInv.traceDist t ht
      unfold improves at himp
      rw [hlv] at himp
      have h1 : d + e.2.1 < t.1 := of_decide_eq_true himp
      have h2 : t.1 ≤ d := htle t ht
      linarith
    have sub3 : start ≠ e.1 := by
      intro hEq
      unfold improves at himp
      rw [← hEq, hInv.distStart] at himp
      have h1 : d + e.2.1 < 0 := of_decide_eq_true himp
      linarith
    have hkey : ∀ x, x ∈ keysOf (updL s.dist e.1 (d + e.2.1)) →
        x = e.1 ∨ x ∈ keysOf s.dist := by
      intro x hx
      rw [keysOf_updL] at hx
      by_cases hk : e.1 ∈ keysOf s.dist
      · rw [if_pos hk] at hx
        exact Or.inr hx
      · rw [if_neg hk] at hx
        rcases List.mem_append.mp hx with h | h
        · exact Or.inr h
        · exact Or.inl (List.mem_singleton.mp h)
    have hsup : ∀ x, x ∈ keysOf s.dist → x ∈ keysOf (updL s.dist e.1 (d + e.2.1)) := by
      intro x hx
      rw [keysOf_updL]
      by_cases hk : e.1 ∈ keysOf s.dist
      · rwa [if_pos hk]
      · rw [if_neg hk]
        exact List.mem_append.mpr (Or.inl hx)
    rw [hch]
    refine ⟨⟨?_, ?_, ?_, ?_, ?_, ?_, ?_, ?_, ?_, ?_, ?_, ?_, ?_, ?_, ?_⟩, rfl⟩
    · show lookupL (updL s.dist e.1 (d + e.2.1)) start = some 0
      rw [lookupL_updL, if_neg sub3]
      exact hInv.distStart
    · intro p hp
      rcases mem_updL hp with h | h
      · exact hInv.distNonneg p h
      · rw [h]
        exact hnd0
    · intro q hq
      rcases List.mem_append.mp hq with h | h
      · obtain ⟨dv, hdv, hle⟩ := hInv.pqDist q h
        by_cases hqv : q.2 = e.1
        · have hdv2 : lookupL s.dist e.1 = some dv := by
            rw [← hqv]
            exact hdv
          have himp2 : d + e.2.1 < dv := by
            unfold improves at himp
            rw [hdv2] at himp
            exact of_decide_eq_true himp
          refine ⟨d + e.2.1, ?_, ?_⟩
          · rw [lookupL_updL, if_pos hqv]
          · exact le_trans (le_of_lt himp2) hle
        · refine ⟨dv, ?_, hle⟩
          rw [lookupL_updL, if_neg hqv]
          exact hdv
      · obtain rfl := List.mem_singleton.mp h
        refine ⟨d + e.2.1, ?_, le_refl _⟩
        rw [lookupL_updL, if_pos rfl]
    · intro t ht
      have htv : t.2 ≠ e.1 := by
        intro hEq
        exact sub1 (hEq ▸ List.mem_map.mpr ⟨t, ht, rfl⟩)
      rw [lookupL_updL, if_neg htv]
      exact hInv.traceDist t ht
    · intro t ht q hq
      rcases List.mem_append.mp hq with h | h
      · exact hInv.traceLePq t ht q h
      · obtain rfl := List.mem_singleton.mp h
        exact le_trans (htle t ht) hndd
    · exact hInv.traceSorted
    · exact hInv.traceNodup
    · intro v dv hl hnv
      by_cases hvv : v = e.1
      · subst hvv
        rw [lookupL_updL, if_pos rfl] at hl
        obtain rfl := Option.some_inj.mp hl
        exact List.mem_append.mpr (Or.inr (List.mem_singleton.mpr rfl))
      · rw [lookupL_updL, if_neg hvv] at hl
        exact List.mem_append.mpr (Or.inl (hInv.unvisEntry v dv hl hnv))
    · intro p hp
      rcases mem_updL hp with h | h
      · exact hInv.prevVis p h
      · rw [h]
        exact hu_vis
    · intro p hp hp1
      rcases mem_updL hp with h | h
      · exact hInv.prevRank p h hp1
      · exfalso
        rw [h] at hp1
        exact sub1 hp1
    · intro v hv
      by_cases hvv : v = e.1
      · subst hvv
        right
        rw [lookupL_updL, if_pos rfl]
        rfl
      · rcases hkey v hv with h | h
        · exact absurd h hvv
        · rcases hInv.distChain v h with h2 | h2
          · exact Or.inl h2
          · right
            rw [lookupL_updL, if_neg hvv]
            exact h2
    · intro p hp
      rcases mem_updL hp with h | h
      · exact hsup _ (hInv.prevSubDist p h)
      · rw [h]
        show e.1 ∈ keysOf (updL s.dist e.1 (d + e.2.1))
        have hsome : (lookupL (updL s.dist e.1 (d + e.2.1)) e.1).isSome := by
          rw [lookupL_updL, if_pos rfl]
          rfl
        exact (lookupL_isSome_iff _ _).mp hsome
    · exact keysOf_updL_nodup _ _ hInv.prevKeysNodup
    · intro v hv
      rcases hkey v hv with h | h
      · rw [h]
        exact ReachR.step hreach he
      · exact hInv.distReach v h
    · intro q hq
      rcases List.mem_append.mp hq with h | h
      · exact hInv.pqReach q h
      · obtain rfl := List.mem_singleton.mp h
        exact ReachR.step hreach he
  · have hch : relaxOne u d s e = s := by
      simp only [relaxOne]
      rw [if_neg himp]
    rw [hch]
    exact ⟨hInv, rfl⟩

/-- The whole relaxation pass preserves the invariant and the trace. -/
theorem inv_relaxAll {adj : AdjList} {start : Node} {u : Node} {d : ℚ}
    (hreach : ReachR adj start u) (hW : ∀ e ∈ adjGet adj u, 0 ≤ e.2.1) :
    ∀ (l : List AdjEntry), (∀ e ∈ l, e ∈ adjGet adj u) →
    ∀ (s : DState), Inv adj start s → s.trace.getLast? = some (d, u) →
    Inv adj start (l.foldl (relaxOne u d) s) ∧
      (l.foldl (relaxOne u d) s).trace = s.trace := by
  intro l
  induction l with
  | nil =>
    intro _ s hInv _
    exact ⟨hInv, rfl⟩
  | cons e es ih =>
    intro hl s hInv hlast
    simp only [List.foldl_cons]
    have he := hl e (List.mem_cons_self _ _)
    obtain ⟨hInv2, htr⟩ := inv_relaxOne hInv hlast he (hW e he) hreach
    obtain ⟨hInv3, htr3⟩ := ih (fun f hf => hl f (List.mem_cons_of_mem _ hf))
      (relaxOne u d s e) hInv2 (by rw [htr]; exact hlast)
    exact ⟨hInv3, by rw [htr3, htr]⟩

/-- The search loop preserves the invariant. -/
theorem inv_dijkstraLoop {adj : AdjList} {start : Node} (goal : Node)
    (hW : WNonneg adj) :
    ∀ fuel (s : DState), Inv adj start s →
      Inv adj start (dijkstraLoop adj goal fuel s) := by
  intro fuel
  induction fuel with
  | zero =>
    intro s hInv
    exact hInv
  | succ fuel ih =>
    intro s hInv
    cases hm : minEntryPq s.pq with
    | none =>
      simp only [dijkstraLoop, hm]
      exact hInv
    | some du =>
      simp only [dijkstraLoop, hm]
      by_cases hv : du.2 ∈ visitedOf s
      · rw [if_pos hv]
        exact ih _ (inv_skip hInv hv)
      · rw [if_neg hv]
        have hInv1 := inv_finalize hInv hm hv
        by_cases hg : du.2 == goal
        · rw [if_pos hg]
          exact hInv1
        · rw [if_neg hg]
          apply ih
          have hreach : ReachR adj start du.2 := hInv.pqReach du (minEntryPq_mem hm)
          have hlast : ({ s with
              pq := eraseFirstPq s.pq du
              trace := s.trace ++ [du] } : DState).trace.getLast? = some (du.1, du.2) := by
            show (s.trace ++ [du]).getLast? = some (du.1, du.2)
            rw [List.getLast?_concat]
          exact (inv_relaxAll hreach (adjGet_wnonneg hW du.2) (adjGet adj du.2)
            (fun f hf => hf) _ hInv1 hlast).1

end GridFlow

namespace GridFlow

/-! ## C3: search invariants -/

/-- Relaxation never touches the trace. -/
theorem relaxOne_trace (u : Node) (d : ℚ) (s : DState) (e : AdjEntry) :
    (relaxOne u d s e).trace = s.trace := by
  simp only [relaxOne]
  by_cases h : improves s.dist e.1 (d + e.2.1) = true
  · rw [if_pos h]
  · rw [if_neg h]

theorem foldl_relaxOne_trace (u : Node) (d : ℚ) :
    ∀ (l : List AdjEntry) (s : DState), (l.foldl (relaxOne u d) s).trace = s.trace := by
  intro l
  induction l with
  | nil =>
    intro s
    rfl
  | cons e es ih =>
    intro s
    rw [List.foldl_cons, ih, relaxOne_trace]

/-- Once the goal is popped the loop halts: if the goal ever appears among
the finalized nodes of the result, it is the last finalization event. -/
theorem dijkstraLoop_goal_last (adj : AdjList) (goal : Node) :
    ∀ fuel (s : DState), goal ∉ visitedOf s →
      goal ∈ visitedOf (dijkstraLoop adj goal fuel s) →
      (visitedOf (dijkstraLoop adj goal fuel s)).getLast? = some goal := by
  intro fuel
  induction fuel with
  | zero =>
    intro s hns hmem
    exact absurd hmem hns
  | succ fuel ih =>
    intro s hns hmem
    cases hm : minEntryPq s.pq with
    | none =>
      simp only [dijkstraLoop, hm] at hmem ⊢
      exact absurd hmem hns
    | some du =>
      simp only [dijkstraLoop, hm] at hmem ⊢
      by_cases hv : du.2 ∈ visitedOf s
      · rw [if_pos hv] at hmem ⊢
        exact ih _ hns hmem
      · rw [if_neg hv] at hmem ⊢
        by_cases hg : du.2 == goal
        · rw [if_pos hg] at hmem ⊢
          have hEq : du.2 = goal := eq_of_beq hg
          show ((s.trace ++ [du]).map (·.2)).getLast? = some goal
          rw [List.map_append]
          show (s.trace.map (·.2) ++ [du.2]).getLast? = some goal
          rw [List.getLast?_concat, hEq]
        · rw [if_neg hg] at hmem ⊢
          have hg2 : du.2 ≠ goal := fun h => hg (by rw [h]; exact beq_self_eq_true goal)
          apply ih
          · show goal ∉ visitedOf (List.foldl (relaxOne du.2 du.1)
              { s with pq := eraseFirstPq s.pq du, trace := s.trace ++ [du] }
              (adjGet adj du.2))
            have htr := foldl_relaxOne_trace du.2 du.1 (adjGet adj du.2)
              { s with pq := eraseFirstPq s.pq du, trace := s.trace ++ [du] }
            show goal ∉ (List.foldl (relaxOne du.2 du.1)
              { s with pq := eraseFirstPq s.pq du, trace := s.trace ++ [du] }
              (adjGet adj du.2)).trace.map (·.2)
            rw [htr]
            show goal ∉ (s.trace ++ [du]).map (·.2)
            rw [List.map_append]
            intro hgm
            rcases List.mem_append.mp hgm with h | h
            · exact hns h
            · exact hg2 (List.mem_singleton.mp h).symm
          · exact hmem

/-- C3: for any adjacency structure with non-negative weights and any
start node in it, the search finalizes each node at most once, the
finalized distances are non-decreasing in pop order, and if the goal is
ever finalized it is the last node finalized (the loop halts as soon as
the goal is popped). -/
theorem c3_search_invariants (adj : AdjList) (start goal : Node)
    (hW : WNonneg adj) (_hstart : start ∈ keysOf adj) :
    (visitedOf (dijkstraRun adj start goal)).Nodup ∧
    List.Pairwise (· ≤ ·) ((dijkstraRun adj start goal).trace.map (·.1)) ∧
    (goal ∈ visitedOf (dijkstraRun adj start goal) →
      (visitedOf (dijkstraRun adj start goal)).getLast? = some goal) := by
  have hInv := inv_dijkstraLoop goal hW (dijkstraFuel adj) (initState start)
    (inv_init adj start)
  refine ⟨hInv.traceNodup, hInv.traceSorted, ?_⟩
  intro hmem
  exact dijkstraLoop_goal_last adj goal (dijkstraFuel adj) (initState start)
    (by intro h; simp [visitedOf, initState] at h) hmem

def c3Adj : AdjList :=
  [("a", [("b", 1, 0), ("c", 5, 1)]),
   ("b", [("a", 1, 0), ("c", 1, 2)]),
   ("c", [("a", 5, 1), ("b", 1, 2)])]

theorem c3_search_invariants_witness :
    WNonneg c3Adj ∧ "a" ∈ keysOf c3Adj ∧
    ((visitedOf (dijkstraRun c3Adj "a" "c")).Nodup ∧
     List.Pairwise (· ≤ ·) ((dijkstraRun c3Adj "a" "c").trace.map (·.1)) ∧
     ("c" ∈ visitedOf (dijkstraRun c3Adj "a" "c") →
       (visitedOf (dijkstraRun c3Adj "a" "c")).getLast? = some "c")) :=
  ⟨by unfold WNonneg; decide, by decide,
   c3_search_invariants c3Adj "a" "c" (by unfold WNonneg; decide) (by decide)⟩

end GridFlow

namespace GridFlow

/-! ## C2: chain reconstruction from the final search state -/

/-- `_reconstruct` is monotone in fuel: a successful chase stays
successful with more fuel. -/
theorem reconstructChain_mono {prev : List (Node × Node)} {start : Node} :
    ∀ (f f' : Nat) (b : Node) (l : List Node), f ≤ f' →
      reconstructChain prev start f b = some l →
      reconstructChain prev start f' b = some l := by
  intro f
  induction f with
  | zero =>
    intro f' b l _ h
    simp [reconstructChain] at h
  | succ f ih =>
    intro f' b l hle h
    obtain ⟨f'', rfl⟩ : ∃ f'', f' = f'' + 1 := ⟨f' - 1, by omega⟩
    by_cases hbs : b == start
    · simp only [reconstructChain, if_pos hbs] at h ⊢
      exact h
    · simp only [reconstructChain, if_neg hbs] at h ⊢
      cases hu : lookupL prev b with
      | none =>
        rw [hu] at h
        exact Option.noConfusion h
      | some u =>
        rw [hu] at h
        have h2 : Option.map (fun l => l ++ [b]) (reconstructChain prev start f u) = some l := h
        obtain ⟨l0, hl0, hfb⟩ := Option.map_eq_some'.mp h2
        subst hfb
        show Option.map (fun l => l ++ [b]) (reconstructChain prev start f'' u) = some (l0 ++ [b])
        rw [ih f'' u l0 (by omega) hl0]
        rfl

/-- Every finalized node admits a predecessor chain from the start, with
fuel bounded by its finalization rank. -/
theorem chain_of_visited {adj : AdjList} {start : Node} {s : DState}
    (hInv : Inv adj start s) :
    ∀ (n : Nat) (v : Node), v ∈ visitedOf s → (visitedOf s).indexOf v < n →
      ∃ l, reconstructChain s.prev start ((visitedOf s).indexOf v + 1) v = some l ∧
        l.getLast? = some v := by
  intro n
  induction n with
  | zero =>
    intro v _ h
    exact absurd h (Nat.not_lt_zero _)
  | succ n ih =>
    intro v hv hlt
    by_cases hvs : v = start
    · subst hvs
      refine ⟨[v], ?_, by simp⟩
      simp only [reconstructChain]
      rw [if_pos (beq_self_eq_true v)]
    · obtain ⟨t, ht, htv⟩ := List.mem_map.mp hv
      have hvd : lookupL s.dist v = some t.1 := by
        rw [← htv]
        exact hInv.traceDist t ht
      have hvk : v ∈ keysOf s.dist := mem_keysOf_of_lookupL hvd
      rcases hInv.distChain v hvk with h | h
      · exact absurd h hvs
      · obtain ⟨u, hu⟩ := Option.isSome_iff_exists.mp h
        have hmem : (v, u) ∈ s.prev := lookupL_some_mem hu
        have huv : u ∈ visitedOf s := hInv.prevVis (v, u) hmem
        have hrank : (visitedOf s).indexOf u < (visitedOf s).indexOf v :=
          hInv.prevRank (v, u) hmem hv
        obtain ⟨l0, hl0, hlast0⟩ := ih u huv (by omega)
        have hl0' : reconstructChain s.prev start ((visitedOf s).indexOf v) u = some l0 :=
          reconstructChain_mono _ _ _ _ (by omega) hl0
        refine ⟨l0 ++ [v], ?_, List.getLast?_concat _⟩
        simp only [reconstructChain]
        rw [if_neg (show ¬((v == start) = true) from fun hh => hvs (eq_of_beq hh))]
        rw [hu]
        show Option.map (fun l => l ++ [v])
          (reconstructChain s.prev start ((visitedOf s).indexOf v) u) = some (l0 ++ [v])
        rw [hl0']
        rfl

/-- Every finalized non-start node carries a predecessor entry. -/
theorem visited_subset_prevKeys {adj : AdjList} {start : Node} {s : DState}
    (hInv : Inv adj start s) :
    ∀ v ∈ visitedOf s, v ≠ start → v ∈ keysOf s.prev := by
  intro v hv hvs
  obtain ⟨t, ht, htv⟩ := List.mem_map.mp hv
  have hvd : lookupL s.dist v = some t.1 := by
    rw [← htv]
    exact hInv.traceDist t ht
  have hvk : v ∈ keysOf s.dist := mem_keysOf_of_lookupL hvd
  rcases hInv.distChain v hvk with h | h
  · exact absurd h hvs
  · obtain ⟨u, hu⟩ := Option.isSome_iff_exists.mp h
    exact mem_keysOf_of_lookupL hu

/-- Removing one designated value from a duplicate-free list costs at most
one element. -/
theorem length_le_filter_ne (a : Node) :
    ∀ l : List Node, l.Nodup → l.length ≤ (l.filter (fun v => v != a)).length + 1 := by
  intro l
  induction l with
  | nil =>
    intro _
    simp
  | cons x xs ih =>
    intro hnd
    have hx : x ∉ xs := (List.nodup_cons.mp hnd).1
    have hnd2 : xs.Nodup := (List.nodup_cons.mp hnd).2
    by_cases hxa : x = a
    · subst hxa
      rw [List.filter_cons, if_neg (by simp)]
      have hfe : xs.filter (fun v => v != x) = xs :=
        List.filter_eq_self.mpr (fun b hb => bne_iff_ne.mpr (fun hEq => hx (hEq ▸ hb)))
      rw [hfe, List.length_cons]
    · rw [List.filter_cons, if_pos (bne_iff_ne.mpr hxa), List.length_cons, List.length_cons]
      have := ih hnd2
      omega

/-- The number of finalized nodes is at most one more than the number of
predecessor entries. -/
theorem visited_length_le {adj : AdjList} {start : Node} {s : DState}
    (hInv : Inv adj start s) :
    (visitedOf s).length ≤ s.prev.length + 1 := by
  have hsub : ∀ v ∈ (visitedOf s).filter (fun v => v != start), v ∈ keysOf s.prev := by
    intro v hvf
    exact visited_subset_prevKeys hInv v (List.mem_filter.mp hvf).1
      (bne_iff_ne.mp (List.mem_filter.mp hvf).2)
  have hnd : ((visitedOf s).filter (fun v => v != start)).Nodup :=
    hInv.traceNodup.filter _
  have h1 := (hnd.subperm hsub).length_le
  have h2 := length_le_filter_ne start (visitedOf s) hInv.traceNodup
  have h3 : (keysOf s.prev).length = s.prev.length := List.length_map _ _
  omega

/-- Sharper bound when some unfinalized node holds a predecessor entry. -/
theorem visited_length_le_of_unvis {adj : AdjList} {start : Node} {s : DState}
    (hInv : Inv adj start s) {b : Node}
    (hbp : b ∈ keysOf s.prev) (hbv : b ∉ visitedOf s) :
    (visitedOf s).length ≤ s.prev.length := by
  have hsub : ∀ v ∈ b :: (visitedOf s).filter (fun v => v != start), v ∈ keysOf s.prev := by
    intro v hv
    rcases List.mem_cons.mp hv with rfl | hvf
    · exact hbp
    · exact visited_subset_prevKeys hInv v (List.mem_filter.mp hvf).1
        (bne_iff_ne.mp (List.mem_filter.mp hvf).2)
  have hnd : (b :: (visitedOf s).filter (fun v => v != start)).Nodup := by
    rw [List.nodup_cons]
    refine ⟨?_, hInv.traceNodup.filter _⟩
    intro hbf
    exact hbv (List.mem_filter.mp hbf).1
  have h1 := (hnd.subperm hsub).length_le
  rw [List.length_cons] at h1
  have h2 := length_le_filter_ne start (visitedOf s) hInv.traceNodup
  have h3 : (keysOf s.prev).length = s.prev.length := List.length_map _ _
  omega

/-- Reconstruction succeeds, with the public fuel budget, for every node
holding a finite tentative distance, and ends at that node. -/
theorem chain_of_distKey {adj : AdjList} {start : Node} {s : DState}
    (hInv : Inv adj start s) {b : Node} (hb : b ∈ keysOf s.dist) :
    ∃ l, reconstructChain s.prev start (s.prev.length + 1) b = some l ∧
      l.getLast? = some b := by
  by_cases hbs : b = start
  · subst hbs
    refine ⟨[b], ?_, by simp⟩
    simp only [reconstructChain]
    rw [if_pos (beq_self_eq_true b)]
  · rcases hInv.distChain b hb with h | h
    · exact absurd h hbs
    · obtain ⟨u, hu⟩ := Option.isSome_iff_exists.mp h
      have hmem : (b, u) ∈ s.prev := lookupL_some_mem hu
      have huv : u ∈ visitedOf s := hInv.prevVis (b, u) hmem
      have huidx : (visitedOf s).indexOf u < (visitedOf s).length :=
        List.indexOf_lt_length.mpr huv
      by_cases hbv : b ∈ visitedOf s
      · have hbidx : (visitedOf s).indexOf b < (visitedOf s).length :=
          List.indexOf_lt_length.mpr hbv
        obtain ⟨l, hl, hlast⟩ :=
          chain_of_visited hInv ((visitedOf s).indexOf b + 1) b hbv (by omega)
        have hlen := visited_length_le hInv
        exact ⟨l, reconstructChain_mono _ _ _ _ (by omega) hl, hlast⟩
      · obtain ⟨l0, hl0, hlast0⟩ :=
          chain_of_visited hInv ((visitedOf s).indexOf u + 1) u huv (by omega)
        have hlen := visited_length_le_of_unvis hInv (mem_keysOf_of_lookupL hu) hbv
        have hl0' : reconstructChain s.prev start s.prev.length u = some l0 :=
          reconstructChain_mono _ _ _ _ (by omega) hl0
        refine ⟨l0 ++ [b], ?_, List.getLast?_concat _⟩
        simp only [reconstructChain]
        rw [if_neg (show ¬((b == start) = true) from fun hh => hbs (eq_of_beq hh))]
        rw [hu]
        show Option.map (fun l => l ++ [b])
          (reconstructChain s.prev start s.prev.length u) = some (l0 ++ [b])
        rw [hl0']
        rfl

end GridFlow

namespace GridFlow

/-! ## C2: fallback node selection -/

/-- The fold step of `_closest_reachable_node`. -/
def crnStep (gm : GeoModel) (nodeXY : List (Node × Coord)) (goalXY : Coord)
    (best : Option (Node × ℚ)) (p : Node × ℚ) : Option (Node × ℚ) :=
  match lookupL nodeXY p.1 with
  | none => best
  | some xy =>
    let d := gm.geod xy goalXY
    match best with
    | none => some (p.1, d)
    | some bn => if d < bn.2 then some (p.1, d) else best

/-- Accumulator invariant of the fold: either nothing seen so far had a
coordinate, or the accumulator holds a seen key whose geodesic distance to
the goal is minimal among all seen coordinated keys. -/
def crnGood (gm : GeoModel) (nodeXY : List (Node × Coord)) (goalXY : Coord)
    (S : List (Node × ℚ)) : Option (Node × ℚ) → Prop
| none => ∀ p ∈ S, lookupL nodeXY p.1 = none
| some bn => bn.1 ∈ keysOf S ∧
    (∃ xy, lookupL nodeXY bn.1 = some xy ∧ gm.geod xy goalXY = bn.2) ∧
    ∀ p ∈ S, ∀ xy, lookupL nodeXY p.1 = some xy → bn.2 ≤ gm.geod xy goalXY

theorem crnStep_good {gm : GeoModel} {nodeXY : List (Node × Coord)} {goalXY : Coord}
    {S : List (Node × ℚ)} {acc : Option (Node × ℚ)} (p : Node × ℚ)
    (h : crnGood gm nodeXY goalXY S acc) :
    crnGood gm nodeXY goalXY (S ++ [p]) (crnStep gm nodeXY goalXY acc p) := by
  cases hxy : lookupL nodeXY p.1 with
  | none =>
    cases acc with
    | none =>
      simp only [crnStep, hxy, crnGood] at h ⊢
      intro q hq
      rcases List.mem_append.mp hq with hqS | hqp
      · exact h q hqS
      · obtain rfl := List.mem_singleton.mp hqp
        exact hxy
    | some bn =>
      simp only [crnStep, hxy, crnGood] at h ⊢
      obtain ⟨hk, hxyb, hmin⟩ := h
      refine ⟨List.mem_map.mpr ?_, hxyb, ?_⟩
      · obtain ⟨q, hqS, hq1⟩ := List.mem_map.mp hk
        exact ⟨q, List.mem_append.mpr (Or.inl hqS), hq1⟩
      intro q hq xy hq2
      rcases List.mem_append.mp hq with hqS | hqp
      · exact hmin q hqS xy hq2
      · obtain rfl := List.mem_singleton.mp hqp
        rw [hxy] at hq2
        exact Option.noConfusion hq2
  | some xy =>
    cases acc with
    | none =>
      simp only [crnStep, hxy, crnGood] at h ⊢
      refine ⟨?_, ⟨xy, rfl, rfl⟩, ?_⟩
      · exact List.mem_map.mpr ⟨p, List.mem_append.mpr (Or.inr (List.mem_singleton.mpr rfl)), rfl⟩
      · intro q hq xy' hq2
        rcases List.mem_append.mp hq with hqS | hqp
        · rw [h q hqS] at hq2
          exact Option.noConfusion hq2
        · obtain rfl := List.mem_singleton.mp hqp
          rw [hxy] at hq2
          obtain rfl := Option.some_inj.mp hq2
          exact le_refl _
    | some bn =>
      obtain ⟨hk, ⟨xyb, hxyb, hgb⟩, hmin⟩ := h
      by_cases hd : gm.geod xy goalXY < bn.2
      · have hch : crnStep gm nodeXY goalXY (some bn) p = some (p.1, gm.geod xy goalXY) := by
          simp only [crnStep, hxy]
          rw [if_pos hd]
        rw [hch]
        simp only [crnGood]
        refine ⟨?_, ⟨xy, hxy, rfl⟩, ?_⟩
        · exact List.mem_map.mpr ⟨p, List.mem_append.mpr (Or.inr (List.mem_singleton.mpr rfl)),
            rfl⟩
        · intro q hq xy' hq2
          rcases List.mem_append.mp hq with hqS | hqp
          · exact le_trans (le_of_lt hd) (hmin q hqS xy' hq2)
          · obtain rfl := List.mem_singleton.mp hqp
            rw [hxy] at hq2
            obtain rfl := Option.some_inj.mp hq2
            exact le_refl _
      · have hch : crnStep gm nodeXY goalXY (some bn) p = some bn := by
          simp only [crnStep, hxy]
          rw [if_neg hd]
        rw [hch]
        simp only [crnGood]
        refine ⟨List.mem_map.mpr ?_, ⟨xyb, hxyb, hgb⟩, ?_⟩
        · obtain ⟨q, hqS, hq1⟩ := List.mem_map.mp hk
          exact ⟨q, List.mem_append.mpr (Or.inl hqS), hq1⟩
        · intro q hq xy' hq2
          rcases List.mem_append.mp hq with hqS | hqp
          · exact hmin q hqS xy' hq2
          · obtain rfl := List.mem_singleton.mp hqp
            rw [hxy] at hq2
            obtain rfl := Option.some_inj.mp hq2
            exact le_of_not_lt hd

theorem crn_foldl_good (gm : GeoModel) (nodeXY : List (Node × Coord)) (goalXY : Coord) :
    ∀ (l : List (Node × ℚ)) (S : List (Node × ℚ)) (acc : Option (Node × ℚ)),
      crnGood gm nodeXY goalXY S acc →
      crnGood gm nodeXY goalXY (S ++ l) (l.foldl (crnStep gm nodeXY goalXY) acc) := by
  intro l
  induction l with
  | nil =>
    intro S acc h
    rw [List.append_nil]
    exact h
  | cons p ps ih =>
    intro S acc h
    rw [List.foldl_cons]
    have h3 := ih (S ++ [p]) _ (crnStep_good p h)
    rw [List.append_assoc, List.singleton_append] at h3
    exact h3

/-- Specification of `_closest_reachable_node`: whenever some distanced
node has a known coordinate, the result is a distanced node whose
coordinate is geodesically nearest the goal coordinate among all
distanced nodes with known coordinates. -/
theorem closestReachableNode_spec (gm : GeoModel) (dist : List (Node × ℚ))
    (nodeXY : List (Node × Coord)) (goalXY : Coord)
    (hex : ∃ p ∈ dist, (lookupL nodeXY p.1).isSome) :
    ∃ best xyb, closestReachableNode gm dist nodeXY goalXY = some best ∧
      best ∈ keysOf dist ∧ lookupL nodeXY best = some xyb ∧
      ∀ p ∈ dist, ∀ xy, lookupL nodeXY p.1 = some xy →
        gm.geod xyb goalXY ≤ gm.geod xy goalXY := by
  have hg : crnGood gm nodeXY goalXY ([] ++ dist)
      (dist.foldl (crnStep gm nodeXY goalXY) none) :=
    crn_foldl_good gm nodeXY goalXY dist [] none
      (by intro p hp; exact absurd hp (List.not_mem_nil p))
  rw [List.nil_append] at hg
  cases hacc : dist.foldl (crnStep gm nodeXY goalXY) none with
  | none =>
    rw [hacc] at hg
    obtain ⟨p, hp, hps⟩ := hex
    simp only [crnGood] at hg
    rw [hg p hp] at hps
    exact absurd hps (by simp)
  | some bn =>
    rw [hacc] at hg
    simp only [crnGood] at hg
    obtain ⟨hk, ⟨xyb, hxyb, hgeod⟩, hmin⟩ := hg
    refine ⟨bn.1, xyb, ?_, hk, hxyb, ?_⟩
    · show (dist.foldl (crnStep gm nodeXY goalXY) none).map (·.1) = some bn.1
      rw [hacc]
      rfl
    · intro p hp xy hxy
      rw [hgeod]
      exact hmin p hp xy hxy

end GridFlow

namespace GridFlow

/-- Every endpoint of a row obtains a coordinate in the node index. -/
theorem lookupL_buildNodeXY_isSome (rows : List SemiPathR) {v : Node}
    (hv : ∃ r ∈ rows, v = r.connection.1 ∨ v = r.connection.2) :
    (lookupL (buildNodeXY rows) v).isSome := by
  have hpre : ∀ (m : List (Node × Coord)) (k : Node) (w : Coord),
      (lookupL m v).isSome → (lookupL (xyInsert m k w) v).isSome := by
    intro m k w h
    rw [lookupL_xyInsert_of_isSome k w h]
    exact h
  have key : ∀ (l : List SemiPathR) (acc : List (Node × Coord)),
      ((lookupL acc v).isSome ∨ ∃ r ∈ l, v = r.connection.1 ∨ v = r.connection.2) →
      (lookupL (l.foldl (fun m r => xyInsert (xyInsert m r.connection.1
        (if r.connection.1 == r.connection.2 then (geomEndpointsXY r.geometry).2
         else (geomEndpointsXY r.geometry).1)) r.connection.2
        (geomEndpointsXY r.geometry).2) acc) v).isSome := by
    intro l
    induction l with
    | nil =>
      intro acc hyp
      rcases hyp with hs | ⟨r, hr, _⟩
      · exact hs
      · exact absurd hr (List.not_mem_nil r)
    | cons r rs ih =>
      intro acc hyp
      rw [List.foldl_cons]
      apply ih
      rcases hyp with hs | ⟨r', hr', hcase⟩
      · exact Or.inl (hpre _ _ _ (hpre _ _ _ hs))
      · rcases List.mem_cons.mp hr' with rfl | hr2
        · rcases hcase with rfl | rfl
          · exact Or.inl (hpre _ _ _ (lookupL_xyInsert_self acc _ _))
          · exact Or.inl (lookupL_xyInsert_self _ _ _)
        · exact Or.inr ⟨r', hr2, hcase⟩
  exact key rows [] (Or.inr hv)

end GridFlow

namespace GridFlow

/-- A row's endpoint dictionary resolves both of its connection names. -/
theorem pacXY_isSome {sp : SemiPath} {n : Node}
    (h : sp.connection.1 = n ∨ sp.connection.2 = n) : (pacXY sp n).isSome := by
  simp only [pacXY]
  by_cases hb : n == sp.connection.2
  · rw [if_pos hb]
    rfl
  · rw [if_neg hb]
    have ha : (n == sp.connection.1) = true := by
      rcases h with h | h
      · exact beq_iff_eq.mpr h.symm
      · exact absurd (beq_iff_eq.mpr h.symm) hb
    rw [if_pos ha]
    rfl

/-- Any adjacency-closed node set containing the start contains everything
reachable from it (used to refute reachability on concrete graphs). -/
theorem reach_subset {adj : AdjList} {start : Node} (S : List Node)
    (hstart : start ∈ S)
    (hclosed : ∀ u ∈ S, ∀ e ∈ adjGet adj u, e.1 ∈ S) :
    ∀ v, ReachR adj start v → v ∈ S := by
  intro v hv
  induction hv with
  | base => exact hstart
  | step hu he ih => exact hclosed _ ih _ he

/-- C2: when the destination is referenced by some edge but unreachable
from the start, the engine reports completeness = false and returns the
path reconstructed to the finitely-distanced node geodesically nearest
the destination coordinate; that node terminates the reconstructed node
sequence and minimizes the geodesic distance among all nodes that
received a finite tentative distance. -/
theorem c2_unreachable_fallback (gm : GeoModel) (start dest : Node)
    (semiPaths : List SemiPath) (ssdmtL : List SsdmtRow) (segconL : List SegconRow)
    (hW : WNonneg (buildAdj (addResistenceToSemiPaths semiPaths ssdmtL segconL)))
    (hstart : ∃ r ∈ addResistenceToSemiPaths semiPaths ssdmtL segconL,
      start = r.connection.1 ∨ start = r.connection.2)
    (hdest : ∃ r ∈ addResistenceToSemiPaths semiPaths ssdmtL segconL,
      r.connection.1 = dest ∨ r.connection.2 = dest)
    (hnr : ¬ ReachR (buildAdj (addResistenceToSemiPaths semiPaths ssdmtL segconL)) start dest) :
    ∃ row destXY best xyb,
      (addResistenceToSemiPaths semiPaths ssdmtL segconL).find?
        (fun r => r.connection.1 == dest || r.connection.2 == dest) = some row ∧
      pacXY row.toSemiPath dest = some destXY ∧
      closestReachableNode gm
        (dijkstraRun (buildAdj (addResistenceToSemiPaths semiPaths ssdmtL segconL))
          start dest).dist
        (buildNodeXY (addResistenceToSemiPaths semiPaths ssdmtL segconL)) destXY = some best ∧
      shortestPathByDijkstra gm start dest semiPaths ssdmtL segconL =
        (nodesToRowsPath gm (addResistenceToSemiPaths semiPaths ssdmtL segconL)
          (reconstructPath
            (dijkstraRun (buildAdj (addResistenceToSemiPaths semiPaths ssdmtL segconL))
              start dest).prev start best)
          (buildP2R (addResistenceToSemiPaths semiPaths ssdmtL segconL)), false) ∧
      (reconstructPath
        (dijkstraRun (buildAdj (addResistenceToSemiPaths semiPaths ssdmtL segconL))
          start dest).prev start best).getLast? = some best ∧
      best ∈ keysOf (dijkstraRun (buildAdj (addResistenceToSemiPaths semiPaths ssdmtL segconL))
        start dest).dist ∧
      lookupL (buildNodeXY (addResistenceToSemiPaths semiPaths ssdmtL segconL)) best =
        some xyb ∧
      ∀ v ∈ keysOf (dijkstraRun (buildAdj (addResistenceToSemiPaths semiPaths ssdmtL segconL))
        start dest).dist,
        ∀ xyv, lookupL (buildNodeXY (addResistenceToSemiPaths semiPaths ssdmtL segconL)) v =
          some xyv → gm.geod xyb destXY ≤ gm.geod xyv destXY := by
  have hInv : Inv (buildAdj (addResistenceToSemiPaths semiPaths ssdmtL segconL)) start
      (dijkstraRun (buildAdj (addResistenceToSemiPaths semiPaths ssdmtL segconL))
        start dest) :=
    inv_dijkstraLoop dest hW _ _ (inv_init _ start)
  have hdk : dest ∉ keysOf (dijkstraRun
      (buildAdj (addResistenceToSemiPaths semiPaths ssdmtL segconL)) start dest).dist :=
    fun hd => hnr (hInv.distReach dest hd)
  have hdS : dest ≠ start := fun h => hnr (by rw [h]; exact ReachR.base)
  have hdp : dest ∉ keysOf (dijkstraRun
      (buildAdj (addResistenceToSemiPaths semiPaths ssdmtL segconL)) start dest).prev := by
    intro hd
    obtain ⟨q, hq, hq1⟩ := List.mem_map.mp hd
    apply hdk
    have hq2 := hInv.prevSubDist q hq
    rw [hq1] at hq2
    exact hq2
  have hrecon0 : reconstructPath (dijkstraRun
      (buildAdj (addResistenceToSemiPaths semiPaths ssdmtL segconL)) start dest).prev
      start dest = [] :=
    reconstructPath_eq_nil _ _ _ hdS (lookupL_eq_none_of_not_mem hdp)
  cases hrow : (addResistenceToSemiPaths semiPaths ssdmtL segconL).find?
      (fun r => r.connection.1 == dest || r.connection.2 == dest) with
  | none =>
    exfalso
    rw [List.find?_eq_none] at hrow
    obtain ⟨r, hr, hc⟩ := hdest
    refine hrow r hr ?_
    rcases hc with h | h
    · simp [h]
    · simp [h]
  | some row =>
    have hrowP : row.connection.1 = dest ∨ row.connection.2 = dest := by
      have hp := List.find?_some hrow
      simpa using hp
    obtain ⟨destXY, hpac⟩ := Option.isSome_iff_exists.mp (pacXY_isSome hrowP)
    have hsXY : (lookupL (buildNodeXY (addResistenceToSemiPaths semiPaths ssdmtL segconL))
        start).isSome :=
      lookupL_buildNodeXY_isSome _ hstart
    have hstart0 : (start, 0) ∈ (dijkstraRun
        (buildAdj (addResistenceToSemiPaths semiPaths ssdmtL segconL)) start dest).dist :=
      lookupL_some_mem hInv.distStart
    obtain ⟨best, xyb, hbest, hbk, hbxy, hbmin⟩ :=
      closestReachableNode_spec gm
        (dijkstraRun (buildAdj (addResistenceToSemiPaths semiPaths ssdmtL segconL))
          start dest).dist
        (buildNodeXY (addResistenceToSemiPaths semiPaths ssdmtL segconL)) destXY
        ⟨(start, 0), hstart0, hsXY⟩
    obtain ⟨lc, hlc, hlast⟩ := chain_of_distKey hInv hbk
    have hrp : reconstructPath (dijkstraRun
        (buildAdj (addResistenceToSemiPaths semiPaths ssdmtL segconL)) start dest).prev
        start best = lc := by
      unfold reconstructPath
      rw [hlc]
      rfl
    refine ⟨row, destXY, best, xyb, rfl, hpac, hbest, ?_, ?_, hbk, hbxy, ?_⟩
    · simp only [shortestPathByDijkstra, dijkstra]
      rw [hrecon0]
      rw [if_neg (fun h => h rfl)]
      simp only [hrow, hpac, hbest]
    · rw [hrp]
      exact hlast
    · intro v hv xyv hxyv
      obtain ⟨q, hq, hq1⟩ := List.mem_map.mp hv
      subst hq1
      exact hbmin q hq xyv hxyv

end GridFlow

namespace GridFlow

/-- Two disconnected switch-kind edges: A–B and C–D. -/
def c2Rows : List SemiPath :=
  [{ connection := ("A", "B"), cod_id := "e1", ctmt := "t", path_type := "x",
     geometry := .line ⟨(0, 0), [(1, 0)]⟩ },
   { connection := ("C", "D"), cod_id := "e2", ctmt := "t", path_type := "x",
     geometry := .line ⟨(5, 0), [(6, 0)]⟩ }]

theorem c2_unreachable_fallback_witness :
    WNonneg (buildAdj (addResistenceToSemiPaths c2Rows [] [])) ∧
    (∃ r ∈ addResistenceToSemiPaths c2Rows [] [],
      "A" = r.connection.1 ∨ "A" = r.connection.2) ∧
    (∃ r ∈ addResistenceToSemiPaths c2Rows [] [],
      r.connection.1 = "C" ∨ r.connection.2 = "C") ∧
    (¬ ReachR (buildAdj (addResistenceToSemiPaths c2Rows [] [])) "A" "C") ∧
    (∃ row destXY best xyb,
      (addResistenceToSemiPaths c2Rows [] []).find?
        (fun r => r.connection.1 == "C" || r.connection.2 == "C") = some row ∧
      pacXY row.toSemiPath "C" = some destXY ∧
      closestReachableNode gmW
        (dijkstraRun (buildAdj (addResistenceToSemiPaths c2Rows [] [])) "A" "C").dist
        (buildNodeXY (addResistenceToSemiPaths c2Rows [] [])) destXY = some best ∧
      shortestPathByDijkstra gmW "A" "C" c2Rows [] [] =
        (nodesToRowsPath gmW (addResistenceToSemiPaths c2Rows [] [])
          (reconstructPath
            (dijkstraRun (buildAdj (addResistenceToSemiPaths c2Rows [] [])) "A" "C").prev
            "A" best)
          (buildP2R (addResistenceToSemiPaths c2Rows [] [])), false) ∧
      (reconstructPath
        (dijkstraRun (buildAdj (addResistenceToSemiPaths c2Rows [] [])) "A" "C").prev
        "A" best).getLast? = some best ∧
      best ∈ keysOf (dijkstraRun (buildAdj (addResistenceToSemiPaths c2Rows [] []))
        "A" "C").dist ∧
      lookupL (buildNodeXY (addResistenceToSemiPaths c2Rows [] [])) best = some xyb ∧
      ∀ v ∈ keysOf (dijkstraRun (buildAdj (addResistenceToSemiPaths c2Rows [] []))
        "A" "C").dist,
        ∀ xyv, lookupL (buildNodeXY (addResistenceToSemiPaths c2Rows [] [])) v =
          some xyv → gmW.geod xyb destXY ≤ gmW.geod xyv destXY) := by
  have hnr : ¬ ReachR (buildAdj (addResistenceToSemiPaths c2Rows [] [])) "A" "C" := by
    intro h
    have hmem := reach_subset ["A", "B"] (by decide) (by decide) "C" h
    exact absurd hmem (by decide)
  refine ⟨?_, ?_, ?_, hnr, ?_⟩
  · unfold WNonneg
    decide
  · decide
  · decide
  · exact c2_unreachable_fallback gmW "A" "C" c2Rows [] []
      (by unfold WNonneg; decide) (by decide) (by decide) hnr

end GridFlow
